import Mathlib

set_option maxHeartbeats 1000000

/-!
Verification of the commit-graph / topological-sort / sticky-output core.

This file is a shallow embedding of the core of `topo_order_commits.py`:
the class `CommitObject`, the helpers `grab_corresponding_commit` and
`remove_unvisited_commits`, the graph builder `build_commit_graph`, the
sorter `topological_sort` and the formatter `print_sticky_sorted_order`.

Python hashes are embedded as `String`, the mutable list of
`CommitObject`s as a `List CommitObject` threaded through the functions,
and the insertion-ordered Python `dict` as an association list.  The two
worklist loops of the source iterate over a list that grows while it is
being iterated; they are embedded as index-based recursions driven by a
fuel parameter (the sorter's loop genuinely diverges on adversarial
inputs, so fuel is required for a total embedding; theorems quantify over
sufficient fuel or hold for every fuel).  A Python crash (attribute access
on `None`) is a dedicated error outcome, distinct from the source's
explicit `sys.exit(1)` diagnostics.
-/

/-- Embeds the Python class `CommitObject`: a commit hash, the declared
parent hashes, the discovered child hashes and the sorter's scratch copy
of the parents. -/
structure CommitObject where
  commit_hash : String
  parents : List String
  children : List String
  temp_parents : List String
deriving DecidableEq, Repr

/-- The immutable part of a `CommitObject` (everything except
`temp_parents`): hash, parents and children. -/
def skel (c : CommitObject) : String × List String × List String :=
  (c.commit_hash, c.parents, c.children)

/-- The part of a `CommitObject` never written by any phase after record
loading: hash and parents. -/
def hp (c : CommitObject) : String × List String :=
  (c.commit_hash, c.parents)

/-- Embeds `grab_corresponding_commit`: linear scan returning the first
commit whose hash matches (the Python `==` on `CommitObject` compares the
hash), `none` when absent. -/
def grab_corresponding_commit : List CommitObject → String → Option CommitObject
  | [], _ => none
  | c :: rest, h =>
      if c.commit_hash = h then some c else grab_corresponding_commit rest h

/-- In-place mutation of the object returned by `grab_corresponding_commit`:
replace the first commit with the given hash by `f` of it. -/
def update_first : List CommitObject → String → (CommitObject → CommitObject) → List CommitObject
  | [], _, _ => []
  | c :: rest, h, f =>
      if c.commit_hash = h then f c :: rest else c :: update_first rest h f

/-- The children list of the commit a hash resolves to (empty when the
hash has no commit). -/
def childrenOf (commits : List CommitObject) (h : String) : List String :=
  match grab_corresponding_commit commits h with
  | some c => c.children
  | none => []

/-- The parents list of the commit a hash resolves to (empty when the
hash has no commit). -/
def parentsOf (commits : List CommitObject) (h : String) : List String :=
  match grab_corresponding_commit commits h with
  | some c => c.parents
  | none => []

/-- The scratch parents list of the commit a hash resolves to. -/
def tempOf (commits : List CommitObject) (h : String) : List String :=
  match grab_corresponding_commit commits h with
  | some c => c.temp_parents
  | none => []

/-- `dict.get` on an insertion-ordered association list. -/
def dictGet (d : List (String × Bool)) (k : String) : Option Bool :=
  match d with
  | [] => none
  | p :: rest => if p.1 = k then some p.2 else dictGet rest k

/-- `dict[k] = v` on an insertion-ordered association list: update in
place when the key exists, append otherwise. -/
def dictSet (d : List (String × Bool)) (k : String) (v : Bool) : List (String × Bool) :=
  match d with
  | [] => [(k, v)]
  | p :: rest => if p.1 = k then (k, v) :: rest else p :: dictSet rest k v

/-- `list.remove` for the commit list: drop the first commit whose hash
matches (Python equality on `CommitObject` compares hashes). -/
def removeFirstCommit : List CommitObject → String → List CommitObject
  | [], _ => []
  | c :: rest, h => if c.commit_hash = h then rest else c :: removeFirstCommit rest h

theorem removeFirstCommit_length_le (l : List CommitObject) (h : String) :
    (removeFirstCommit l h).length ≤ l.length := by
  induction l with
  | nil => simp [removeFirstCommit]
  | cons c rest ih =>
      by_cases hc : c.commit_hash = h
      · simp only [removeFirstCommit, hc, if_pos, List.length_cons]
        omega
      · simp only [removeFirstCommit, hc, if_neg, List.length_cons, not_false_iff]
        omega

/-- Embeds the body of `remove_unvisited_commits`: a Python `for` over
`commits` whose body calls `commits.remove`, i.e. an index-driven walk in
which a removal shifts the remainder left while the index still
advances.  The first argument is a step counter that makes the recursion
structural; `commits.length - i` steps always suffice because the index
grows and the list never does. -/
def removeUnvisitedLoop (visited : List String) :
    Nat → List CommitObject → Nat → List CommitObject
  | 0, commits, _ => commits
  | k + 1, commits, i =>
      if hlt : i < commits.length then
        let c := commits.get ⟨i, hlt⟩
        if c.commit_hash ∈ visited then
          removeUnvisitedLoop visited k commits (i + 1)
        else
          removeUnvisitedLoop visited k (removeFirstCommit commits c.commit_hash) (i + 1)
      else
        commits

/-- Embeds `remove_unvisited_commits(commits, visited)`. -/
def remove_unvisited_commits (commits : List CommitObject) (visited : List String) :
    List CommitObject :=
  removeUnvisitedLoop visited commits.length commits 0

/-- The seeding loop of `build_commit_graph`:
`for branch_hash in branches: processing_list.append(branch_hash)` over
the branch dictionary in its enumeration order. -/
def initial_processing_list (branches : List (String × List String)) : List String :=
  branches.foldl (fun pl b => pl ++ [b.1]) []

/-- The inner loop of `build_commit_graph` over `commit.parents`:
enqueue each parent not yet seen by the visited dictionary, then append
the current hash to the parent's children list; `none` embeds the crash
(`AttributeError` on `None`) when a parent hash has no commit. -/
def processParents (commits : List CommitObject) (visited : List (String × Bool))
    (pl : List String) (chash : String) :
    List String → Option (List CommitObject × List (String × Bool) × List String)
  | [] => some (commits, visited, pl)
  | p :: rest =>
      let enq := (dictGet visited p).isNone
      let visited1 := if enq then dictSet visited p false else visited
      let pl1 := if enq then pl ++ [p] else pl
      match grab_corresponding_commit commits p with
      | none => none
      | some _ =>
          processParents
            (update_first commits p (fun d => { d with children := d.children ++ [chash] }))
            visited1 pl1 chash rest

/-- Result of `build_commit_graph`: the pruned commit list plus the root
list on success, a Python crash (missing commit dereferenced as `None`),
or fuel exhaustion of the embedding. -/
inductive BuildResult where
  | ok (commits : List CommitObject) (roots : List String)
  | crash
  | timeout
deriving DecidableEq, Repr

/-- The worklist loop of `build_commit_graph`: pop `processing_list[i]`;
skip if already visited, otherwise mark visited, look the commit up
(crash when absent), record it as a root when parentless, and process its
parents.  When the index passes the end, convert the visited dictionary
to its key list and prune with `remove_unvisited_commits`. -/
def buildLoop : Nat → List CommitObject → List (String × Bool) → List String → Nat →
    List String → BuildResult
  | 0, commits, visited, pl, i, roots =>
      if i < pl.length then BuildResult.timeout
      else BuildResult.ok (remove_unvisited_commits commits (visited.map Prod.fst)) roots
  | fuel' + 1, commits, visited, pl, i, roots =>
      if hlt : i < pl.length then
        if dictGet visited (pl.get ⟨i, hlt⟩) = some true then
          buildLoop fuel' commits visited pl (i + 1) roots
        else
          match grab_corresponding_commit commits (pl.get ⟨i, hlt⟩) with
          | none => BuildResult.crash
          | some c =>
              match processParents commits (dictSet visited (pl.get ⟨i, hlt⟩) true) pl
                  (pl.get ⟨i, hlt⟩) c.parents with
              | none => BuildResult.crash
              | some (commits2, visited2, pl2) =>
                  buildLoop fuel' commits2 visited2 pl2 (i + 1)
                    (if c.parents.isEmpty then roots ++ [pl.get ⟨i, hlt⟩] else roots)
      else
        BuildResult.ok (remove_unvisited_commits commits (visited.map Prod.fst)) roots

/-- Embeds `build_commit_graph(branches, commits, root_commits)`: seed
the worklist with the branch dictionary's keys in enumeration order and
run the traversal; returns the mutated commit list and the root list. -/
def build_commit_graph (branches : List (String × List String))
    (commits : List CommitObject) (fuel : Nat) : BuildResult :=
  buildLoop fuel commits [] (initial_processing_list branches) 0 []

/-- `initialize_temp_parents` applied to every commit:
`self.temp_parents[:] = self.parents`. -/
def initialize_temp_parents (commits : List CommitObject) : List CommitObject :=
  commits.map (fun c => { c with temp_parents := c.parents })

/-- Terminal outcome of `topological_sort`. -/
inductive SortOutcome where
  | ok (sorted : List String)
  | cycleDetected
  | sortFailure
  | crash
  | timeout
deriving DecidableEq, Repr

/-- Observable result of a run of `topological_sort`: the outcome, the
number of `attempting to remove nonexisting parent` warnings printed, and
the final states of the worklist (which aliases the caller's
`root_commits` list) and of the commit list. -/
structure SortRun where
  outcome : SortOutcome
  warnings : Nat
  final_pl : List String
  final_commits : List CommitObject
deriving DecidableEq, Repr

/-- The inner loop of `topological_sort` over `commit.children`: remove
the popped hash from each child's `temp_parents` (counting a warning when
absent, as the `except ValueError` branch prints one), and enqueue the
child when its `temp_parents` becomes empty; `none` embeds the crash when
a child hash has no commit. -/
def processChildren (commits : List CommitObject) (pl : List String) (warn : Nat)
    (popped : String) :
    List String → Option (List CommitObject × List String × Nat)
  | [] => some (commits, pl, warn)
  | ch :: rest =>
      match grab_corresponding_commit commits ch with
      | none => none
      | some cc =>
          let removed := cc.temp_parents.contains popped
          let newTemp := if removed then cc.temp_parents.erase popped else cc.temp_parents
          let warn1 := if removed then warn else warn + 1
          let commits1 := update_first commits ch (fun d => { d with temp_parents := newTemp })
          let pl1 := if newTemp.isEmpty then pl ++ [ch] else pl
          processChildren commits1 pl1 warn1 popped rest

/-- The checks after the sorter's queue drains: first the cycle scan over
`temp_parents`, then the length comparison, then the normal return. -/
def finalCheck (commits : List CommitObject) (sorted : List String) (warn : Nat)
    (pl : List String) : SortRun :=
  if commits.any (fun c => !c.temp_parents.isEmpty) then
    ⟨SortOutcome.cycleDetected, warn, pl, commits⟩
  else if commits.length ≠ sorted.length then
    ⟨SortOutcome.sortFailure, warn, pl, commits⟩
  else
    ⟨SortOutcome.ok sorted, warn, pl, commits⟩

/-- The worklist loop of `topological_sort`: pop `processing_list[i]`,
append it to the result, look it up (crash when absent) and process its
children; run the terminal checks when the index passes the end. -/
def sortLoop : Nat → List CommitObject → List String → Nat → List String → Nat → SortRun
  | 0, commits, pl, i, sorted, warn =>
      if i < pl.length then ⟨SortOutcome.timeout, warn, pl, commits⟩
      else finalCheck commits sorted warn pl
  | fuel' + 1, commits, pl, i, sorted, warn =>
      if hlt : i < pl.length then
        match grab_corresponding_commit commits (pl.get ⟨i, hlt⟩) with
        | none => ⟨SortOutcome.crash, warn, pl, commits⟩
        | some c =>
            match processChildren commits pl warn (pl.get ⟨i, hlt⟩) c.children with
            | none => ⟨SortOutcome.crash, warn, pl, commits⟩
            | some (commits1, pl1, warn1) =>
                sortLoop fuel' commits1 pl1 (i + 1) (sorted ++ [pl.get ⟨i, hlt⟩]) warn1
      else
        finalCheck commits sorted warn pl

/-- Embeds `topological_sort(commits, root_commits)`: copy every commit's
parents into its scratch list and run the worklist loop with the caller's
`root_commits` as the (aliased, growing) processing list. -/
def topological_sort (commits : List CommitObject) (root_commits : List String)
    (fuel : Nat) : SortRun :=
  sortLoop fuel (initialize_temp_parents commits) root_commits 0 [] 0

/-- `build_commit_graph` followed by `topological_sort`, the composition
the determinism property quantifies over. -/
def build_then_sort (branches : List (String × List String))
    (commits : List CommitObject) (fuelB fuelS : Nat) : Option SortRun :=
  match build_commit_graph branches commits fuelB with
  | BuildResult.ok cs roots => some (topological_sort cs roots fuelS)
  | _ => none

/-- `" ".join`, the separator `print(*xs)` places between its
arguments. -/
def joinSpace (xs : List String) : String :=
  String.intercalate " " xs

/-- `branches.get` on the branch dictionary. -/
def branchesGet (branches : List (String × List String)) (k : String) :
    Option (List String) :=
  match branches with
  | [] => none
  | p :: rest => if p.1 = k then some p.2 else branchesGet rest k

/-- The line `print(current_hash)` or
`print(current_hash, *branches[current_hash])` produces. -/
def commitLine (branches : List (String × List String)) (h : String) : String :=
  match branchesGet branches h with
  | none => h
  | some bs => joinSpace (h :: bs)

/-- The line `print(*current_commit.parents, end=""); print("=\n")`
starts with: the space-separated parents immediately followed by `=`. -/
def parentsLine (c : CommitObject) : String :=
  joinSpace c.parents ++ "="

/-- The line `print("=", end=""); print(*current_commit.children)`
produces: `=` immediately followed by the space-separated children. -/
def childrenLine (c : CommitObject) : String :=
  "=" ++ joinSpace c.children

/-- The test `next_hash is not None and next_hash not in
current_commit.parents`: true when a next commit exists and does not
continue the current parent chain. -/
def brokenAfter (c : CommitObject) (rest : List String) : Bool :=
  match rest with
  | [] => false
  | nxt :: _ => !(c.parents.contains nxt)

/-- Embeds the loop of `print_sticky_sorted_order` as the list of lines
written to standard output; `none` embeds the crash when a hash in the
order has no commit.  The boolean is the `prev_empty` flag. -/
def stickyLoop (commits : List CommitObject) (branches : List (String × List String)) :
    Bool → List String → Option (List String)
  | _, [] => some []
  | prevEmpty, cur :: rest =>
      match grab_corresponding_commit commits cur with
      | none => none
      | some c =>
          match stickyLoop commits branches (brokenAfter c rest) rest with
          | none => none
          | some tail =>
              some ((if prevEmpty then [childrenLine c] else []) ++
                [commitLine branches cur] ++
                (if brokenAfter c rest then [parentsLine c, ""] else []) ++ tail)

/-- Embeds `print_sticky_sorted_order(topo_ordered_commits, commits,
branches)` as the emitted lines. -/
def print_sticky_sorted_order (topo_ordered_commits : List String)
    (commits : List CommitObject) (branches : List (String × List String)) :
    Option (List String) :=
  stickyLoop commits branches false topo_ordered_commits

/-! ## Basic lemmas about the list and dictionary primitives -/

theorem grab_some_mem {cs : List CommitObject} {h : String} {c : CommitObject}
    (hg : grab_corresponding_commit cs h = some c) : c ∈ cs ∧ c.commit_hash = h := by
  induction cs with
  | nil => simp [grab_corresponding_commit] at hg
  | cons d rest ih =>
      by_cases hd : d.commit_hash = h
      · simp only [grab_corresponding_commit, hd, if_pos, Option.some_inj] at hg
        subst hg
        exact ⟨List.mem_cons_self _ _, hd⟩
      · simp only [grab_corresponding_commit, hd, if_neg, not_false_iff] at hg
        obtain ⟨h1, h2⟩ := ih hg
        exact ⟨List.mem_cons_of_mem _ h1, h2⟩

theorem grab_isSome_of_exists {cs : List CommitObject} {h : String}
    (he : ∃ c ∈ cs, c.commit_hash = h) :
    ∃ c, grab_corresponding_commit cs h = some c ∧ c ∈ cs ∧ c.commit_hash = h := by
  induction cs with
  | nil => simp at he
  | cons d rest ih =>
      by_cases hd : d.commit_hash = h
      · exact ⟨d, by simp [grab_corresponding_commit, hd], List.mem_cons_self _ _, hd⟩
      · obtain ⟨c, hc, hch⟩ := he
        rcases List.mem_cons.mp hc with rfl | hc'
        · exact absurd hch hd
        · obtain ⟨c', hg, hm, hh⟩ := ih ⟨c, hc', hch⟩
          exact ⟨c', by simp [grab_corresponding_commit, hd, hg], List.mem_cons_of_mem _ hm, hh⟩

theorem grab_of_nodup {cs : List CommitObject} {c : CommitObject}
    (hnd : (cs.map CommitObject.commit_hash).Nodup) (hc : c ∈ cs) :
    grab_corresponding_commit cs c.commit_hash = some c := by
  induction cs with
  | nil => simp at hc
  | cons d rest ih =>
      rcases List.mem_cons.mp hc with rfl | hc'
      · simp [grab_corresponding_commit]
      · have hd : d.commit_hash ≠ c.commit_hash := by
          intro he
          have : c.commit_hash ∈ rest.map CommitObject.commit_hash :=
            List.mem_map.mpr ⟨c, hc', rfl⟩
          rw [List.map_cons, List.nodup_cons] at hnd
          exact hnd.1 (he ▸ this)
        simp only [grab_corresponding_commit, hd, if_neg, not_false_iff]
        exact ih (by rw [List.map_cons, List.nodup_cons] at hnd; exact hnd.2) hc'

theorem update_first_map {cs : List CommitObject} {h : String} {f : CommitObject → CommitObject}
    {β : Type} (g : CommitObject → β) (hf : ∀ c, g (f c) = g c) :
    (update_first cs h f).map g = cs.map g := by
  induction cs with
  | nil => rfl
  | cons d rest ih =>
      by_cases hd : d.commit_hash = h
      · simp [update_first, hd, hf]
      · simp [update_first, hd, ih]


theorem grab_cons (d : CommitObject) (rest : List CommitObject) (h : String) :
    grab_corresponding_commit (d :: rest) h =
      if d.commit_hash = h then some d else grab_corresponding_commit rest h := rfl

theorem update_first_cons (d : CommitObject) (rest : List CommitObject) (h : String)
    (f : CommitObject → CommitObject) :
    update_first (d :: rest) h f =
      if d.commit_hash = h then f d :: rest else d :: update_first rest h f := rfl

theorem grab_update_first_ne {cs : List CommitObject} {h x : String}
    {f : CommitObject → CommitObject} (hf : ∀ c, (f c).commit_hash = c.commit_hash)
    (hne : x ≠ h) :
    grab_corresponding_commit (update_first cs h f) x = grab_corresponding_commit cs x := by
  induction cs with
  | nil => rfl
  | cons d rest ih =>
      by_cases hd : d.commit_hash = h
      · have hdx : d.commit_hash ≠ x := by rw [hd]; exact fun he => hne he.symm
        have hfx : (f d).commit_hash ≠ x := by rw [hf]; exact hdx
        rw [update_first_cons, if_pos hd, grab_cons, grab_cons, if_neg hfx, if_neg hdx]
      · rw [update_first_cons, if_neg hd, grab_cons, grab_cons]
        by_cases hdx : d.commit_hash = x
        · rw [if_pos hdx, if_pos hdx]
        · rw [if_neg hdx, if_neg hdx, ih]

theorem grab_update_first_self {cs : List CommitObject} {h : String}
    {f : CommitObject → CommitObject} (hf : ∀ c, (f c).commit_hash = c.commit_hash) :
    grab_corresponding_commit (update_first cs h f) h =
      Option.map f (grab_corresponding_commit cs h) := by
  induction cs with
  | nil => rfl
  | cons d rest ih =>
      by_cases hd : d.commit_hash = h
      · have hfd : (f d).commit_hash = h := by rw [hf]; exact hd
        rw [update_first_cons, if_pos hd, grab_cons, if_pos hfd, grab_cons, if_pos hd,
          Option.map_some']
      · rw [update_first_cons, if_neg hd, grab_cons, if_neg hd, grab_cons, if_neg hd, ih]

theorem update_first_eq_map {cs : List CommitObject} {h : String}
    {f : CommitObject → CommitObject}
    (hnd : (cs.map CommitObject.commit_hash).Nodup) :
    update_first cs h f = cs.map (fun c => if c.commit_hash = h then f c else c) := by
  induction cs with
  | nil => rfl
  | cons d rest ih =>
      rw [List.map_cons, List.nodup_cons] at hnd
      by_cases hd : d.commit_hash = h
      · have hrest : ∀ c ∈ rest, c.commit_hash ≠ h := by
          intro c hc he
          exact hnd.1 (hd ▸ he ▸ List.mem_map.mpr ⟨c, hc, rfl⟩)
        have : rest.map (fun c => if c.commit_hash = h then f c else c) = rest := by
          rw [List.map_congr_left (g := id) (fun c hc => by simp [hrest c hc]), List.map_id]
        rw [update_first_cons, if_pos hd, List.map_cons, if_pos hd, this]
      · rw [update_first_cons, if_neg hd, List.map_cons, if_neg hd, ih hnd.2]

theorem dictGet_cons (p : String × Bool) (rest : List (String × Bool)) (k : String) :
    dictGet (p :: rest) k = if p.1 = k then some p.2 else dictGet rest k := rfl

theorem dictSet_cons (p : String × Bool) (rest : List (String × Bool)) (k : String) (v : Bool) :
    dictSet (p :: rest) k v = if p.1 = k then (k, v) :: rest else p :: dictSet rest k v := rfl

theorem dictGet_dictSet (d : List (String × Bool)) (k : String) (v : Bool) (x : String) :
    dictGet (dictSet d k v) x = if x = k then some v else dictGet d x := by
  induction d with
  | nil =>
      by_cases hx : x = k
      · simp [dictSet, dictGet_cons, hx]
      · have : ¬(k = x) := fun he => hx he.symm
        simp [dictSet, dictGet_cons, hx, this, dictGet]
  | cons p rest ih =>
      by_cases hp : p.1 = k
      · rw [dictSet_cons, if_pos hp]
        by_cases hx : x = k
        · subst hx
          simp [dictGet_cons]
        · have hkx : ((k, v) : String × Bool).1 ≠ x := fun he => hx he.symm
          have hpx : ¬(p.1 = x) := by rw [hp]; exact fun he => hx he.symm
          rw [dictGet_cons, if_neg hkx, if_neg hx, dictGet_cons, if_neg hpx]
      · rw [dictSet_cons, if_neg hp]
        by_cases hpx : p.1 = x
        · have hxk : x ≠ k := fun he => hp (he ▸ hpx)
          rw [dictGet_cons, if_pos hpx, if_neg hxk, dictGet_cons, if_pos hpx]
        · rw [dictGet_cons, if_neg hpx, ih]
          by_cases hx : x = k
          · rw [if_pos hx, if_pos hx]
          · rw [if_neg hx, if_neg hx, dictGet_cons, if_neg hpx]

theorem skel_commit_hash {c d : CommitObject} (h : skel c = skel d) :
    c.commit_hash = d.commit_hash := congrArg Prod.fst h

theorem skel_parents {c d : CommitObject} (h : skel c = skel d) :
    c.parents = d.parents := congrArg (fun t => t.2.1) h

theorem skel_children {c d : CommitObject} (h : skel c = skel d) :
    c.children = d.children := congrArg (fun t => t.2.2) h

theorem map_hash_of_map_skel {cs ds : List CommitObject}
    (hsk : cs.map skel = ds.map skel) :
    cs.map CommitObject.commit_hash = ds.map CommitObject.commit_hash := by
  have h1 : cs.map CommitObject.commit_hash = (cs.map skel).map Prod.fst := by
    rw [List.map_map]; rfl
  have h2 : ds.map CommitObject.commit_hash = (ds.map skel).map Prod.fst := by
    rw [List.map_map]; rfl
  rw [h1, h2, hsk]

theorem grab_skel {cs ds : List CommitObject} (hsk : cs.map skel = ds.map skel) (h : String) :
    Option.map skel (grab_corresponding_commit cs h) =
      Option.map skel (grab_corresponding_commit ds h) := by
  induction cs generalizing ds with
  | nil =>
      cases ds with
      | nil => rfl
      | cons d ds' => simp at hsk
  | cons c cs' ih =>
      cases ds with
      | nil => simp at hsk
      | cons d ds' =>
          rw [List.map_cons, List.map_cons] at hsk
          have h1 : skel c = skel d := (List.cons.injEq _ _ _ _ ▸ hsk).1
          have h2 : cs'.map skel = ds'.map skel := (List.cons.injEq _ _ _ _ ▸ hsk).2
          rw [grab_cons, grab_cons]
          by_cases hc : c.commit_hash = h
          · rw [if_pos hc, if_pos (skel_commit_hash h1 ▸ hc), Option.map_some',
              Option.map_some', h1]
          · rw [if_neg hc, if_neg (skel_commit_hash h1 ▸ hc), ih h2]

theorem childrenOf_of_skel {cs ds : List CommitObject}
    (hsk : cs.map skel = ds.map skel) (h : String) :
    childrenOf cs h = childrenOf ds h := by
  have := grab_skel hsk h
  unfold childrenOf
  cases hc : grab_corresponding_commit cs h with
  | none =>
      rw [hc] at this
      cases hd : grab_corresponding_commit ds h with
      | none => rfl
      | some d => rw [hd] at this; simp at this
  | some c =>
      rw [hc] at this
      cases hd : grab_corresponding_commit ds h with
      | none => rw [hd] at this; simp at this
      | some d =>
          rw [hd] at this
          simp only [Option.map_some', Option.some_inj] at this
          exact skel_children this

theorem parentsOf_of_skel {cs ds : List CommitObject}
    (hsk : cs.map skel = ds.map skel) (h : String) :
    parentsOf cs h = parentsOf ds h := by
  have := grab_skel hsk h
  unfold parentsOf
  cases hc : grab_corresponding_commit cs h with
  | none =>
      rw [hc] at this
      cases hd : grab_corresponding_commit ds h with
      | none => rfl
      | some d => rw [hd] at this; simp at this
  | some c =>
      rw [hc] at this
      cases hd : grab_corresponding_commit ds h with
      | none => rw [hd] at this; simp at this
      | some d =>
          rw [hd] at this
          simp only [Option.map_some', Option.some_inj] at this
          exact skel_parents this

theorem exists_skel_mem {cs ds : List CommitObject}
    (hsk : cs.map skel = ds.map skel) {c : CommitObject} (hc : c ∈ cs) :
    ∃ d ∈ ds, skel d = skel c := by
  have : skel c ∈ ds.map skel := hsk ▸ List.mem_map.mpr ⟨c, hc, rfl⟩
  obtain ⟨d, hd, he⟩ := List.mem_map.mp this
  exact ⟨d, hd, he⟩

theorem exists_hash_of_skel {cs ds : List CommitObject}
    (hsk : cs.map skel = ds.map skel) {h : String}
    (he : ∃ c ∈ cs, c.commit_hash = h) : ∃ d ∈ ds, d.commit_hash = h := by
  obtain ⟨c, hc, hch⟩ := he
  obtain ⟨d, hd, hde⟩ := exists_skel_mem hsk hc
  exact ⟨d, hd, by rw [skel_commit_hash hde, hch]⟩

/-! ## Unfolding equations for the loops, one per control-flow branch -/

theorem sortLoop_drain (fuel : Nat) (cs : List CommitObject) (pl : List String) (i : Nat)
    (sorted : List String) (warn : Nat) (hge : ¬ i < pl.length) :
    sortLoop fuel cs pl i sorted warn = finalCheck cs sorted warn pl := by
  cases fuel with
  | zero => rw [sortLoop, if_neg hge]
  | succ fuel' => rw [sortLoop, dif_neg hge]

theorem sortLoop_zero (cs : List CommitObject) (pl : List String) (i : Nat)
    (sorted : List String) (warn : Nat) (hlt : i < pl.length) :
    sortLoop 0 cs pl i sorted warn = ⟨SortOutcome.timeout, warn, pl, cs⟩ := by
  rw [sortLoop, if_pos hlt]

theorem sortLoop_succ_crash1 {fuel' : Nat} {cs : List CommitObject} {pl : List String}
    {i : Nat} {sorted : List String} {warn : Nat} (hlt : i < pl.length)
    (hg : grab_corresponding_commit cs (pl.get ⟨i, hlt⟩) = none) :
    sortLoop (fuel' + 1) cs pl i sorted warn = ⟨SortOutcome.crash, warn, pl, cs⟩ := by
  rw [sortLoop, dif_pos hlt, hg]

theorem sortLoop_succ_crash2 {fuel' : Nat} {cs : List CommitObject} {pl : List String}
    {i : Nat} {sorted : List String} {warn : Nat} {c : CommitObject} (hlt : i < pl.length)
    (hg : grab_corresponding_commit cs (pl.get ⟨i, hlt⟩) = some c)
    (hpc : processChildren cs pl warn (pl.get ⟨i, hlt⟩) c.children = none) :
    sortLoop (fuel' + 1) cs pl i sorted warn = ⟨SortOutcome.crash, warn, pl, cs⟩ := by
  rw [sortLoop, dif_pos hlt, hg]
  show (match processChildren cs pl warn (pl.get ⟨i, hlt⟩) c.children with
    | none => (⟨SortOutcome.crash, warn, pl, cs⟩ : SortRun)
    | some (cs1, pl1, warn1) =>
        sortLoop fuel' cs1 pl1 (i + 1) (sorted ++ [pl.get ⟨i, hlt⟩]) warn1) = _
  rw [hpc]

theorem sortLoop_succ_step {fuel' : Nat} {cs : List CommitObject} {pl : List String}
    {i : Nat} {sorted : List String} {warn : Nat} {c : CommitObject}
    {cs1 : List CommitObject} {pl1 : List String} {warn1 : Nat} (hlt : i < pl.length)
    (hg : grab_corresponding_commit cs (pl.get ⟨i, hlt⟩) = some c)
    (hpc : processChildren cs pl warn (pl.get ⟨i, hlt⟩) c.children = some (cs1, pl1, warn1)) :
    sortLoop (fuel' + 1) cs pl i sorted warn =
      sortLoop fuel' cs1 pl1 (i + 1) (sorted ++ [pl.get ⟨i, hlt⟩]) warn1 := by
  rw [sortLoop, dif_pos hlt, hg]
  show (match processChildren cs pl warn (pl.get ⟨i, hlt⟩) c.children with
    | none => (⟨SortOutcome.crash, warn, pl, cs⟩ : SortRun)
    | some (cs1, pl1, warn1) =>
        sortLoop fuel' cs1 pl1 (i + 1) (sorted ++ [pl.get ⟨i, hlt⟩]) warn1) = _
  rw [hpc]

theorem processChildren_nil (cs : List CommitObject) (pl : List String) (warn : Nat)
    (popped : String) :
    processChildren cs pl warn popped [] = some (cs, pl, warn) := rfl

theorem processChildren_cons_none {cs : List CommitObject} {pl : List String} {warn : Nat}
    {popped ch : String} {rest : List String}
    (hg : grab_corresponding_commit cs ch = none) :
    processChildren cs pl warn popped (ch :: rest) = none := by
  simp only [processChildren, hg]

theorem processChildren_cons_some {cs : List CommitObject} {pl : List String} {warn : Nat}
    {popped ch : String} {rest : List String} {cc : CommitObject}
    (hg : grab_corresponding_commit cs ch = some cc) :
    processChildren cs pl warn popped (ch :: rest) =
      processChildren
        (update_first cs ch (fun d => { d with temp_parents :=
          (if cc.temp_parents.contains popped then cc.temp_parents.erase popped
           else cc.temp_parents) }))
        (if (if cc.temp_parents.contains popped then cc.temp_parents.erase popped
             else cc.temp_parents).isEmpty then pl ++ [ch] else pl)
        (if cc.temp_parents.contains popped then warn else warn + 1)
        popped rest := by
  simp only [processChildren, hg]

theorem buildLoop_drain (fuel : Nat) (cs : List CommitObject)
    (visited : List (String × Bool)) (pl : List String) (i : Nat) (roots : List String)
    (hge : ¬ i < pl.length) :
    buildLoop fuel cs visited pl i roots =
      BuildResult.ok (remove_unvisited_commits cs (visited.map Prod.fst)) roots := by
  cases fuel with
  | zero => rw [buildLoop, if_neg hge]
  | succ fuel' => rw [buildLoop, dif_neg hge]

theorem buildLoop_zero (cs : List CommitObject) (visited : List (String × Bool))
    (pl : List String) (i : Nat) (roots : List String) (hlt : i < pl.length) :
    buildLoop 0 cs visited pl i roots = BuildResult.timeout := by
  rw [buildLoop, if_pos hlt]

theorem buildLoop_succ_skip {fuel' : Nat} {cs : List CommitObject}
    {visited : List (String × Bool)} {pl : List String} {i : Nat} {roots : List String}
    (hlt : i < pl.length) (hv : dictGet visited (pl.get ⟨i, hlt⟩) = some true) :
    buildLoop (fuel' + 1) cs visited pl i roots =
      buildLoop fuel' cs visited pl (i + 1) roots := by
  rw [buildLoop, dif_pos hlt, if_pos hv]

theorem buildLoop_succ_crash1 {fuel' : Nat} {cs : List CommitObject}
    {visited : List (String × Bool)} {pl : List String} {i : Nat} {roots : List String}
    (hlt : i < pl.length) (hv : ¬ dictGet visited (pl.get ⟨i, hlt⟩) = some true)
    (hg : grab_corresponding_commit cs (pl.get ⟨i, hlt⟩) = none) :
    buildLoop (fuel' + 1) cs visited pl i roots = BuildResult.crash := by
  rw [buildLoop, dif_pos hlt, if_neg hv, hg]

theorem buildLoop_succ_crash2 {fuel' : Nat} {cs : List CommitObject}
    {visited : List (String × Bool)} {pl : List String} {i : Nat} {roots : List String}
    {c : CommitObject} (hlt : i < pl.length)
    (hv : ¬ dictGet visited (pl.get ⟨i, hlt⟩) = some true)
    (hg : grab_corresponding_commit cs (pl.get ⟨i, hlt⟩) = some c)
    (hpp : processParents cs (dictSet visited (pl.get ⟨i, hlt⟩) true) pl
        (pl.get ⟨i, hlt⟩) c.parents = none) :
    buildLoop (fuel' + 1) cs visited pl i roots = BuildResult.crash := by
  rw [buildLoop, dif_pos hlt, if_neg hv, hg]
  show (match processParents cs (dictSet visited (pl.get ⟨i, hlt⟩) true) pl
      (pl.get ⟨i, hlt⟩) c.parents with
    | none => BuildResult.crash
    | some (cs2, visited2, pl2) =>
        buildLoop fuel' cs2 visited2 pl2 (i + 1)
          (if c.parents.isEmpty then roots ++ [pl.get ⟨i, hlt⟩] else roots)) = _
  rw [hpp]

theorem buildLoop_succ_step {fuel' : Nat} {cs : List CommitObject}
    {visited : List (String × Bool)} {pl : List String} {i : Nat} {roots : List String}
    {c : CommitObject} {cs2 : List CommitObject} {visited2 : List (String × Bool)}
    {pl2 : List String} (hlt : i < pl.length)
    (hv : ¬ dictGet visited (pl.get ⟨i, hlt⟩) = some true)
    (hg : grab_corresponding_commit cs (pl.get ⟨i, hlt⟩) = some c)
    (hpp : processParents cs (dictSet visited (pl.get ⟨i, hlt⟩) true) pl
        (pl.get ⟨i, hlt⟩) c.parents = some (cs2, visited2, pl2)) :
    buildLoop (fuel' + 1) cs visited pl i roots =
      buildLoop fuel' cs2 visited2 pl2 (i + 1)
        (if c.parents.isEmpty then roots ++ [pl.get ⟨i, hlt⟩] else roots) := by
  rw [buildLoop, dif_pos hlt, if_neg hv, hg]
  show (match processParents cs (dictSet visited (pl.get ⟨i, hlt⟩) true) pl
      (pl.get ⟨i, hlt⟩) c.parents with
    | none => BuildResult.crash
    | some (cs2, visited2, pl2) =>
        buildLoop fuel' cs2 visited2 pl2 (i + 1)
          (if c.parents.isEmpty then roots ++ [pl.get ⟨i, hlt⟩] else roots)) = _
  rw [hpp]

theorem processParents_nil (cs : List CommitObject) (visited : List (String × Bool))
    (pl : List String) (chash : String) :
    processParents cs visited pl chash [] = some (cs, visited, pl) := rfl

theorem processParents_cons_none {cs : List CommitObject} {visited : List (String × Bool)}
    {pl : List String} {chash p : String} {rest : List String}
    (hg : grab_corresponding_commit cs p = none) :
    processParents cs visited pl chash (p :: rest) = none := by
  simp only [processParents, hg]

theorem processParents_cons_some {cs : List CommitObject} {visited : List (String × Bool)}
    {pl : List String} {chash p : String} {rest : List String} {d : CommitObject}
    (hg : grab_corresponding_commit cs p = some d) :
    processParents cs visited pl chash (p :: rest) =
      processParents
        (update_first cs p (fun e => { e with children := e.children ++ [chash] }))
        (if (dictGet visited p).isNone then dictSet visited p false else visited)
        (if (dictGet visited p).isNone then pl ++ [p] else pl)
        chash rest := by
  simp only [processParents, hg]

/-! ## Frame lemmas: what the sorter writes and what it leaves alone -/

theorem processChildren_frame {children : List String} {cs : List CommitObject}
    {pl : List String} {warn : Nat} {popped : String}
    {cs' : List CommitObject} {pl' : List String} {warn' : Nat}
    (h : processChildren cs pl warn popped children = some (cs', pl', warn')) :
    cs'.map skel = cs.map skel ∧ ∃ suf, pl' = pl ++ suf := by
  induction children generalizing cs pl warn with
  | nil =>
      rw [processChildren_nil] at h
      simp only [Option.some_inj, Prod.mk.injEq] at h
      obtain ⟨h1, h2, h3⟩ := h
      exact ⟨by rw [h1], [], by rw [← h2, List.append_nil]⟩
  | cons ch rest ih =>
      cases hg : grab_corresponding_commit cs ch with
      | none => rw [processChildren_cons_none hg] at h; exact absurd h (by simp)
      | some cc =>
          rw [processChildren_cons_some hg] at h
          obtain ⟨hsk, suf, hpl⟩ := ih h
          constructor
          · rw [hsk]
            apply update_first_map
            intro c
            rfl
          · by_cases hemp : (if cc.temp_parents.contains popped then
                cc.temp_parents.erase popped else cc.temp_parents).isEmpty
            · rw [if_pos hemp] at hpl
              exact ⟨[ch] ++ suf, by rw [hpl, List.append_assoc]⟩
            · rw [if_neg hemp] at hpl
              exact ⟨suf, hpl⟩

theorem finalCheck_frame (cs : List CommitObject) (sorted : List String) (warn : Nat)
    (pl : List String) :
    (finalCheck cs sorted warn pl).final_commits = cs ∧
      (finalCheck cs sorted warn pl).final_pl = pl := by
  unfold finalCheck
  split
  · exact ⟨rfl, rfl⟩
  · split
    · exact ⟨rfl, rfl⟩
    · exact ⟨rfl, rfl⟩

theorem sortLoop_frame : ∀ (fuel : Nat) (cs : List CommitObject) (pl : List String)
    (i : Nat) (sorted : List String) (warn : Nat),
    (sortLoop fuel cs pl i sorted warn).final_commits.map skel = cs.map skel ∧
      ∃ suf, (sortLoop fuel cs pl i sorted warn).final_pl = pl ++ suf := by
  intro fuel
  induction fuel with
  | zero =>
      intro cs pl i sorted warn
      by_cases hlt : i < pl.length
      · rw [sortLoop_zero cs pl i sorted warn hlt]
        exact ⟨rfl, [], by rw [List.append_nil]⟩
      · rw [sortLoop_drain 0 cs pl i sorted warn hlt]
        exact ⟨by rw [(finalCheck_frame cs sorted warn pl).1],
          [], by rw [(finalCheck_frame cs sorted warn pl).2, List.append_nil]⟩
  | succ fuel' ih =>
      intro cs pl i sorted warn
      by_cases hlt : i < pl.length
      · cases hg : grab_corresponding_commit cs (pl.get ⟨i, hlt⟩) with
        | none =>
            rw [sortLoop_succ_crash1 hlt hg]
            exact ⟨rfl, [], by rw [List.append_nil]⟩
        | some c =>
            cases hpc : processChildren cs pl warn (pl.get ⟨i, hlt⟩) c.children with
            | none =>
                rw [sortLoop_succ_crash2 hlt hg hpc]
                exact ⟨rfl, [], by rw [List.append_nil]⟩
            | some out =>
                obtain ⟨cs1, pl1, warn1⟩ := out
                rw [sortLoop_succ_step hlt hg hpc]
                obtain ⟨hsk, suf1, hpl1⟩ := processChildren_frame hpc
                obtain ⟨hsk2, suf2, hpl2⟩ :=
                  ih cs1 pl1 (i + 1) (sorted ++ [pl.get ⟨i, hlt⟩]) warn1
                exact ⟨by rw [hsk2, hsk], suf1 ++ suf2,
                  by rw [hpl2, hpl1, List.append_assoc]⟩
      · rw [sortLoop_drain _ cs pl i sorted warn hlt]
        exact ⟨by rw [(finalCheck_frame cs sorted warn pl).1],
          [], by rw [(finalCheck_frame cs sorted warn pl).2, List.append_nil]⟩

theorem initialize_temp_parents_skel (cs : List CommitObject) :
    (initialize_temp_parents cs).map skel = cs.map skel := by
  unfold initialize_temp_parents
  rw [List.map_map]
  rfl

/-! ## Seeding order of the builder worklist -/

theorem foldl_append_singleton (l : List (String × List String)) :
    ∀ acc : List String, l.foldl (fun pl b => pl ++ [b.1]) acc = acc ++ l.map Prod.fst := by
  induction l with
  | nil => intro acc; simp
  | cons b rest ih =>
      intro acc
      rw [List.foldl_cons, ih (acc ++ [b.1]), List.map_cons, List.append_assoc,
        List.singleton_append]

theorem initial_processing_list_eq (branches : List (String × List String)) :
    initial_processing_list branches = branches.map Prod.fst := by
  unfold initial_processing_list
  rw [foldl_append_singleton branches [], List.nil_append]

/-- C4 (corrected): `build_commit_graph` seeds its worklist with the
branch-head hashes in the order in which the branch dictionary enumerates
them — the order the branch files were walked — not in lexicographically
sorted order. -/
theorem claimC4_seed_enumeration_order (branches : List (String × List String)) :
    initial_processing_list branches = branches.map Prod.fst :=
  initial_processing_list_eq branches

/-- C4 counterexample: with the branch dictionary enumerating head `b`
before head `a`, the seeded worklist is `[b, a]`, which is not
lexicographically sorted. -/
theorem claimC4_counterexample :
    initial_processing_list [("b", ["x"]), ("a", ["y"])] = ["b", "a"] ∧
      ¬ List.Sorted (fun x y : String => x ≤ y)
        (initial_processing_list [("b", ["x"]), ("a", ["y"])]) := by
  have he : initial_processing_list [("b", ["x"]), ("a", ["y"])] = ["b", "a"] := by decide
  refine ⟨he, ?_⟩
  rw [he]
  intro hs
  have hle : ("b" : String) ≤ "a" := List.rel_of_sorted_cons hs "a" (by simp)
  have hlt : ("a" : String) < "b" := by
    rw [String.lt_iff_toList_lt]
    decide
  exact absurd hle (not_le.mpr hlt)

/-- C5 (code bug): `remove_unvisited_commits` iterates the commit list
while removing from it, so after a removal the element shifted into the
current position is skipped.  With reachable `a` followed by unreachable
`u1`, `u2`, the commit `u2` survives pruning even though it is not
visited; the stale node then makes the sorter's length check fail. -/
theorem claimC5_remove_unvisited_bug :
    remove_unvisited_commits
        [⟨"a", [], [], []⟩, ⟨"u1", [], [], []⟩, ⟨"u2", [], [], []⟩] ["a"]
      = [⟨"a", [], [], []⟩, ⟨"u2", [], [], []⟩] ∧
    build_commit_graph [("a", ["main"])]
        [⟨"a", [], [], []⟩, ⟨"u1", [], [], []⟩, ⟨"u2", [], [], []⟩] 5
      = BuildResult.ok [⟨"a", [], [], []⟩, ⟨"u2", [], [], []⟩] ["a"] ∧
    (topological_sort [⟨"a", [], [], []⟩, ⟨"u2", [], [], []⟩] ["a"] 5).outcome
      = SortOutcome.sortFailure := by
  refine ⟨by decide, by decide, by decide⟩

/-- C3 (confirmed): the pipeline `build_commit_graph` then
`topological_sort` is a pure function of the record list, the
branch-dictionary enumeration order and the fuel, so two runs on
byte-identical input produce identical results. -/
theorem claimC3_build_then_sort_deterministic
    (branches1 branches2 : List (String × List String))
    (records1 records2 : List CommitObject) (fuelB fuelS : Nat)
    (hb : branches1 = branches2) (hr : records1 = records2) :
    build_then_sort branches1 records1 fuelB fuelS =
      build_then_sort branches2 records2 fuelB fuelS := by
  rw [hb, hr]

/-- C3 witness: the determinism theorem applied to a concrete repeated
input. -/
theorem claimC3_witness :
    build_then_sort [("a", ["main"])] [⟨"a", [], [], []⟩] 2 2 =
      build_then_sort [("a", ["main"])] [⟨"a", [], [], []⟩] 2 2 :=
  claimC3_build_then_sort_deterministic _ _ _ _ 2 2 rfl rfl

/-- C8 (corrected): `topological_sort` leaves every commit's hash,
parents and children untouched (it writes only `temp_parents`), but it
does mutate the builder's roots sequence: the worklist aliases
`root_commits`, so after sorting the caller's roots list has grown into
the full processing list.  The formatter of the embedding only reads. -/
theorem claimC8_sort_frame (cs : List CommitObject) (roots : List String) (fuel : Nat) :
    (topological_sort cs roots fuel).final_commits.map skel = cs.map skel ∧
      ∃ suf, (topological_sort cs roots fuel).final_pl = roots ++ suf := by
  unfold topological_sort
  obtain ⟨h1, h2⟩ := sortLoop_frame fuel (initialize_temp_parents cs) roots 0 [] 0
  exact ⟨by rw [h1, initialize_temp_parents_skel], h2⟩

/-- C8 counterexample: sorting a two-commit chain extends the caller's
roots list (aliased as the worklist) from `[a]` to `[a, b]`, so the roots
sequence is not unchanged by `topological_sort`. -/
theorem claimC8_counterexample :
    (topological_sort [⟨"a", [], ["b"], []⟩, ⟨"b", ["a"], [], []⟩] ["a"] 5).final_pl
      ≠ ["a"] := by decide

/-- C6 counterexample: a branch head without a record (left) and a parent
hash without a record (right) both make `build_commit_graph` dereference
`None` — an unhandled `AttributeError` crash that prints a multi-line
interpreter traceback, not a single `MissingCommitError` diagnostic
line. -/
theorem claimC6_counterexample :
    build_commit_graph [("a", ["main"])] [] 2 = BuildResult.crash ∧
      build_commit_graph [("b", ["main"])] [⟨"b", ["a"], [], []⟩] 3 = BuildResult.crash := by
  refine ⟨by decide, by decide⟩

/-- C9 counterexample: when commit `b` declares parent `a` twice, the
builder appends `b` to `a`'s children once per declaration, so the built
children list `[b, b]` contains a duplicate edge. -/
theorem claimC9_counterexample :
    build_commit_graph [("b", ["main"])] [⟨"b", ["a", "a"], [], []⟩, ⟨"a", [], [], []⟩] 5
      = BuildResult.ok [⟨"b", ["a", "a"], [], []⟩, ⟨"a", [], ["b", "b"], []⟩] ["a"] ∧
    ¬ (childrenOf [⟨"b", ["a", "a"], [], []⟩, ⟨"a", [], ["b", "b"], []⟩] "a").Nodup := by
  refine ⟨by decide, by decide⟩

/-! ## The sticky formatter's discontinuity blocks -/

theorem parentsOf_eq {cs : List CommitObject} {h : String} {c : CommitObject}
    (hg : grab_corresponding_commit cs h = some c) : parentsOf cs h = c.parents := by
  unfold parentsOf
  rw [hg]

theorem childrenOf_eq {cs : List CommitObject} {h : String} {c : CommitObject}
    (hg : grab_corresponding_commit cs h = some c) : childrenOf cs h = c.children := by
  unfold childrenOf
  rw [hg]

theorem tempOf_eq {cs : List CommitObject} {h : String} {c : CommitObject}
    (hg : grab_corresponding_commit cs h = some c) : tempOf cs h = c.temp_parents := by
  unfold tempOf
  rw [hg]

theorem stickyLoop_nil (cs : List CommitObject) (br : List (String × List String))
    (pe : Bool) : stickyLoop cs br pe [] = some [] := rfl

theorem stickyLoop_cons_some_tail {cs : List CommitObject}
    {br : List (String × List String)} {p : Bool} {cur : String} {rest : List String}
    {c : CommitObject} {tail : List String}
    (hg : grab_corresponding_commit cs cur = some c)
    (ht : stickyLoop cs br (brokenAfter c rest) rest = some tail) :
    stickyLoop cs br p (cur :: rest) =
      some ((if p then [childrenLine c] else []) ++ [commitLine br cur] ++
        (if brokenAfter c rest then [parentsLine c, ""] else []) ++ tail) := by
  simp only [stickyLoop, hg, ht]

theorem stickyLoop_total (cs : List CommitObject) (br : List (String × List String)) :
    ∀ (order : List String) (pe : Bool),
    (∀ h ∈ order, ∃ c ∈ cs, c.commit_hash = h) →
    ∃ lines, stickyLoop cs br pe order = some lines := by
  intro order
  induction order with
  | nil => intro pe _; exact ⟨[], rfl⟩
  | cons cur rest ih =>
      intro pe hall
      obtain ⟨c, hg, _, _⟩ := grab_isSome_of_exists (hall cur (List.mem_cons_self _ _))
      obtain ⟨tail, ht⟩ := ih (brokenAfter c rest)
        (fun h hh => hall h (List.mem_cons_of_mem _ hh))
      exact ⟨_, stickyLoop_cons_some_tail hg ht⟩

theorem stickyLoop_block (cs : List CommitObject) (br : List (String × List String))
    (cur nxt : String) :
    ∀ (order : List String) (pe : Bool) (j : Nat),
    (∀ h ∈ order, ∃ c ∈ cs, c.commit_hash = h) →
    order.get? j = some cur →
    order.get? (j + 1) = some nxt →
    (parentsOf cs cur).contains nxt = false →
    ∃ lines k, stickyLoop cs br pe order = some lines ∧
      lines.get? k = some (commitLine br cur) ∧
      lines.get? (k + 1) = some (joinSpace (parentsOf cs cur) ++ "=") ∧
      lines.get? (k + 2) = some "" ∧
      lines.get? (k + 3) = some ("=" ++ joinSpace (childrenOf cs nxt)) ∧
      lines.get? (k + 4) = some (commitLine br nxt) := by
  intro order
  induction order with
  | nil => intro pe j _ hcur _ _; simp at hcur
  | cons cur0 rest ih =>
      intro pe j hall hcur hnxt hnp
      obtain ⟨c0, hg, _, _⟩ := grab_isSome_of_exists (hall cur0 (List.mem_cons_self _ _))
      have hallrest : ∀ h ∈ rest, ∃ c ∈ cs, c.commit_hash = h :=
        fun h hh => hall h (List.mem_cons_of_mem _ hh)
      cases j with
      | zero =>
          rw [List.get?_cons_zero, Option.some_inj] at hcur
          subst hcur
          rw [List.get?_cons_succ] at hnxt
          cases rest with
          | nil => simp at hnxt
          | cons hd rest' =>
              rw [List.get?_cons_zero, Option.some_inj] at hnxt
              have h2 : nxt = hd := hnxt.symm
              subst h2
              rw [parentsOf_eq hg] at hnp
              have hbrk : brokenAfter c0 (nxt :: rest') = true := by
                have hb : brokenAfter c0 (nxt :: rest') = !(c0.parents.contains nxt) := rfl
                rw [hb, hnp]
                rfl
              obtain ⟨d, hgd, _, _⟩ :=
                grab_isSome_of_exists (hallrest nxt (List.mem_cons_self _ _))
              obtain ⟨t2, ht2⟩ := stickyLoop_total cs br rest' (brokenAfter d rest')
                (fun h hh => hallrest h (List.mem_cons_of_mem _ hh))
              have hlines2 := stickyLoop_cons_some_tail (p := true) hgd ht2
              have hlines := stickyLoop_cons_some_tail (p := pe) hg
                (hbrk ▸ hlines2)
              rw [hbrk, if_pos rfl] at hlines
              refine ⟨_, if pe then 1 else 0, hlines, ?_, ?_, ?_, ?_, ?_⟩ <;>
                · cases pe <;>
                    simp only [if_pos, if_neg, Bool.false_eq_true, not_false_iff,
                      List.append_assoc, List.cons_append, List.singleton_append,
                      List.nil_append, List.get?_cons_zero, List.get?_cons_succ,
                      parentsOf_eq hg, childrenOf_eq hgd, parentsLine, childrenLine,
                      commitLine]
      | succ j' =>
          rw [List.get?_cons_succ] at hcur hnxt
          obtain ⟨tailLines, k', ht, f1, f2, f3, f4, f5⟩ :=
            ih (brokenAfter c0 rest) j' hallrest hcur hnxt hnp
          have hlines := stickyLoop_cons_some_tail (p := pe) hg ht
          set P : List String := (if pe then [childrenLine c0] else []) ++
            [commitLine br cur0] ++
            (if brokenAfter c0 rest then [parentsLine c0, ""] else []) with hP
          have hPassoc : (if pe then [childrenLine c0] else []) ++ [commitLine br cur0] ++
              (if brokenAfter c0 rest then [parentsLine c0, ""] else []) ++ tailLines =
              P ++ tailLines := by
            rw [hP]
          have hm : ∀ m : Nat, (P ++ tailLines).get? (P.length + k' + m) =
              tailLines.get? (k' + m) := by
            intro m
            rw [show P.length + k' + m = P.length + (k' + m) by omega,
              List.get?_append_right (by omega)]
            congr 1
            omega
          refine ⟨P ++ tailLines, P.length + k', by rw [hlines, hPassoc], ?_, ?_, ?_, ?_, ?_⟩
          · have h0 := hm 0
            rw [Nat.add_zero, Nat.add_zero] at h0
            rw [h0]
            exact f1
          · rw [hm 1]
            exact f2
          · rw [hm 2]
            exact f3
          · rw [hm 3]
            exact f4
          · rw [hm 4]
            exact f5

/-- C7 (confirmed): whenever, in the display order, the commit after
position `j` is not among position `j`'s parents, the formatter emits the
commit's line, then a line of its space-separated parent hashes followed
immediately by `=` (no intervening space), then a blank line; and the
next commit's line is immediately preceded by a line consisting of `=`
followed by that commit's space-separated children hashes. -/
theorem claimC7_sticky_discontinuity (order : List String) (cs : List CommitObject)
    (br : List (String × List String)) (j : Nat) (cur nxt : String)
    (hall : ∀ h ∈ order, ∃ c ∈ cs, c.commit_hash = h)
    (hcur : order.get? j = some cur)
    (hnxt : order.get? (j + 1) = some nxt)
    (hnp : (parentsOf cs cur).contains nxt = false) :
    ∃ lines k, print_sticky_sorted_order order cs br = some lines ∧
      lines.get? k = some (commitLine br cur) ∧
      lines.get? (k + 1) = some (joinSpace (parentsOf cs cur) ++ "=") ∧
      lines.get? (k + 2) = some "" ∧
      lines.get? (k + 3) = some ("=" ++ joinSpace (childrenOf cs nxt)) ∧
      lines.get? (k + 4) = some (commitLine br nxt) :=
  stickyLoop_block cs br cur nxt order false j hall hcur hnxt hnp

/-- C7 witness: the discontinuity theorem applied to two disjoint roots
`a`, `b`; the emitted lines are `a`, `=`, blank, `=`, `b`. -/
theorem claimC7_witness :
    ∃ lines k, print_sticky_sorted_order ["a", "b"]
        [⟨"a", [], [], []⟩, ⟨"b", [], [], []⟩] [] = some lines ∧
      lines.get? k = some (commitLine [] "a") ∧
      lines.get? (k + 1) = some (joinSpace (parentsOf
        [⟨"a", [], [], []⟩, ⟨"b", [], [], []⟩] "a") ++ "=") ∧
      lines.get? (k + 2) = some "" ∧
      lines.get? (k + 3) = some ("=" ++ joinSpace (childrenOf
        [⟨"a", [], [], []⟩, ⟨"b", [], [], []⟩] "b")) ∧
      lines.get? (k + 4) = some (commitLine [] "b") :=
  claimC7_sticky_discontinuity ["a", "b"] [⟨"a", [], [], []⟩, ⟨"b", [], [], []⟩] [] 0
    "a" "b" (by decide) (by decide) (by decide) (by decide)

/-! ## Helpers for the sorter's invariant -/

theorem eq_of_mem_hash {cs : List CommitObject} {c d : CommitObject}
    (hnd : (cs.map CommitObject.commit_hash).Nodup) (hc : c ∈ cs) (hd : d ∈ cs)
    (he : c.commit_hash = d.commit_hash) : c = d := by
  have h1 := grab_of_nodup hnd hc
  have h2 := grab_of_nodup hnd hd
  rw [he] at h1
  rw [h1] at h2
  exact Option.some_inj.mp h2

theorem get_not_mem_take {pl : List String} (hnd : pl.Nodup) {i : Nat}
    (hlt : i < pl.length) : pl.get ⟨i, hlt⟩ ∉ pl.take i := by
  intro hmem
  obtain ⟨k, hk, he⟩ := List.mem_take_iff_getElem.mp hmem
  have hki : k < i := lt_of_lt_of_le hk (min_le_left _ _)
  have hkl : k < pl.length := lt_trans hki hlt
  have hinj := List.nodup_iff_injective_get.mp hnd
  have hfin : (⟨k, hkl⟩ : Fin pl.length) = ⟨i, hlt⟩ := by
    apply hinj
    show pl.get ⟨k, hkl⟩ = pl.get ⟨i, hlt⟩
    rw [← he]
    simp [List.get_eq_getElem]
  have : k = i := by
    have := congrArg Fin.val hfin
    simpa using this
  omega

theorem mem_take_exists_get {pl : List String} {x : String} {i : Nat}
    (hmem : x ∈ pl.take i) :
    ∃ k, ∃ hk : k < pl.length, k < i ∧ pl.get ⟨k, hk⟩ = x := by
  obtain ⟨k, hk, he⟩ := List.mem_take_iff_getElem.mp hmem
  have hki : k < i := lt_of_lt_of_le hk (min_le_left _ _)
  have hkl : k < pl.length := lt_of_lt_of_le hk (min_le_right _ _)
  exact ⟨k, hkl, hki, by rw [List.get_eq_getElem]; exact he⟩

theorem take_mem_of_get {pl : List String} {k i : Nat} (hk : k < pl.length)
    (hki : k < i) : pl.get ⟨k, hk⟩ ∈ pl.take i := by
  apply List.mem_take_iff_getElem.mpr
  exact ⟨k, lt_min hki hk, by rw [List.get_eq_getElem]⟩

theorem length_le_of_nodup_hash {cs : List CommitObject} {pl : List String}
    (hnd : (cs.map CommitObject.commit_hash).Nodup) (hpl : pl.Nodup)
    (hmem : ∀ h ∈ pl, ∃ c ∈ cs, c.commit_hash = h) : pl.length ≤ cs.length := by
  have hsub : pl ⊆ cs.map CommitObject.commit_hash := by
    intro h hh
    obtain ⟨c, hc, he⟩ := hmem h hh
    exact List.mem_map.mpr ⟨c, hc, he⟩
  calc pl.length ≤ (cs.map CommitObject.commit_hash).length := (hpl.subperm hsub).length_le
    _ = cs.length := List.length_map _ _

/-! ## Exact specification of the sorter's inner loop -/

theorem processChildren_spec :
    ∀ (children : List String) (cs : List CommitObject) (pl : List String) (w : Nat)
      (popped : String),
    (cs.map CommitObject.commit_hash).Nodup →
    children.Nodup →
    (∀ ch ∈ children, ∃ d, grab_corresponding_commit cs ch = some d ∧
      popped ∈ d.temp_parents) →
    processChildren cs pl w popped children =
      some (cs.map (fun c => if children.contains c.commit_hash then
              { c with temp_parents := c.temp_parents.erase popped } else c),
            pl ++ children.filter (fun ch => ((tempOf cs ch).erase popped).isEmpty),
            w) := by
  intro children
  induction children with
  | nil =>
      intro cs pl w popped hnd _ _
      rw [processChildren_nil, List.filter_nil, List.append_nil]
      have hpt : ∀ c ∈ cs, (if ([] : List String).contains c.commit_hash then
          { c with temp_parents := c.temp_parents.erase popped } else c) = id c :=
        fun c _ => rfl
      rw [List.map_congr_left hpt, List.map_id]
  | cons ch rest ih =>
      intro cs pl w popped hnd hcn hfind
      obtain ⟨d, hgd, hpin⟩ := hfind ch (List.mem_cons_self _ _)
      have hcontains : d.temp_parents.contains popped = true := List.elem_iff.mpr hpin
      have hchr : ch ∉ rest := (List.nodup_cons.mp hcn).1
      have hrestnd : rest.Nodup := (List.nodup_cons.mp hcn).2
      rw [processChildren_cons_some hgd, hcontains, if_pos rfl, if_pos rfl]
      set cs1 : List CommitObject := update_first cs ch
        (fun e => { e with temp_parents := d.temp_parents.erase popped }) with hcs1
      have hhash1 : cs1.map CommitObject.commit_hash = cs.map CommitObject.commit_hash := by
        rw [hcs1]
        exact update_first_map CommitObject.commit_hash (fun c => rfl)
      have hnd1 : (cs1.map CommitObject.commit_hash).Nodup := by rw [hhash1]; exact hnd
      have hgrab1 : ∀ x, x ≠ ch →
          grab_corresponding_commit cs1 x = grab_corresponding_commit cs x := by
        intro x hx
        rw [hcs1]
        exact grab_update_first_ne (fun c => rfl) hx
      have hfind1 : ∀ ch' ∈ rest, ∃ e, grab_corresponding_commit cs1 ch' = some e ∧
          popped ∈ e.temp_parents := by
        intro ch' hch'
        have hne : ch' ≠ ch := fun he => hchr (he ▸ hch')
        obtain ⟨e, hge, hpe⟩ := hfind ch' (List.mem_cons_of_mem _ hch')
        exact ⟨e, by rw [hgrab1 ch' hne]; exact hge, hpe⟩
      rw [ih cs1 _ w popped hnd1 hrestnd hfind1]
      have hmapeq : cs1.map (fun c => if rest.contains c.commit_hash then
            { c with temp_parents := c.temp_parents.erase popped } else c) =
          cs.map (fun c => if (ch :: rest).contains c.commit_hash then
            { c with temp_parents := c.temp_parents.erase popped } else c) := by
        rw [hcs1, update_first_eq_map hnd, List.map_map]
        apply List.map_congr_left
        intro c hc
        by_cases hcch : c.commit_hash = ch
        · have hcd : c = d := by
            obtain ⟨hdm, hdh⟩ := grab_some_mem hgd
            exact eq_of_mem_hash hnd hc hdm (by rw [hcch, hdh])
          have hrest : rest.contains c.commit_hash = false := by
            rw [hcch]
            exact Bool.eq_false_iff.mpr (fun hcon => hchr (List.elem_iff.mp hcon))
          have hcons : (ch :: rest).contains c.commit_hash = true := by
            rw [hcch]
            exact List.elem_iff.mpr (List.mem_cons_self _ _)
          simp only [Function.comp, if_pos hcch, hrest, hcons, Bool.false_eq_true,
            if_false, if_true, ← hcd]
        · have hsame : (ch :: rest).contains c.commit_hash = rest.contains c.commit_hash := by
            apply Bool.eq_iff_iff.mpr
            constructor
            · intro hcon
              rcases List.mem_cons.mp (List.elem_iff.mp hcon) with he | hm
              · exact absurd he hcch
              · exact List.elem_iff.mpr hm
            · intro hcon
              exact List.elem_iff.mpr (List.mem_cons_of_mem _ (List.elem_iff.mp hcon))
          simp only [Function.comp, if_neg hcch, hsame]
      have hfiltereq : rest.filter (fun ch' => ((tempOf cs1 ch').erase popped).isEmpty) =
          rest.filter (fun ch' => ((tempOf cs ch').erase popped).isEmpty) := by
        apply List.filter_congr
        intro ch' hch'
        have hne : ch' ≠ ch := fun he => hchr (he ▸ hch')
        rw [tempOf, tempOf, hgrab1 ch' hne]
      have hpl : (if (d.temp_parents.erase popped).isEmpty then pl ++ [ch] else pl) ++
            rest.filter (fun ch' => ((tempOf cs ch').erase popped).isEmpty) =
          pl ++ (ch :: rest).filter (fun ch' => ((tempOf cs ch').erase popped).isEmpty) := by
        rw [List.filter_cons]
        have htch : tempOf cs ch = d.temp_parents := tempOf_eq hgd
        rw [htch]
        by_cases hemp : (d.temp_parents.erase popped).isEmpty
        · rw [if_pos hemp, if_pos hemp, List.append_assoc, List.singleton_append]
        · rw [if_neg hemp, if_neg hemp]
      rw [hmapeq, hfiltereq, hpl]

/-! ## The sorter's well-formedness bundle and loop invariant -/

/-- The shape `build_commit_graph` guarantees for the graph handed to the
sorter: distinct hashes, duplicate-free parents and children lists,
children entries that point back to their parent, and a duplicate-free
roots list of parentless commits. -/
structure SortWF (cs : List CommitObject) (roots : List String) : Prop where
  hashNodup : (cs.map CommitObject.commit_hash).Nodup
  parentsNodup : ∀ c ∈ cs, c.parents.Nodup
  childrenNodup : ∀ c ∈ cs, c.children.Nodup
  childrenLinked : ∀ c ∈ cs, ∀ ch ∈ c.children,
    ∃ d ∈ cs, d.commit_hash = ch ∧ c.commit_hash ∈ d.parents
  rootsNodup : roots.Nodup
  rootsValid : ∀ r ∈ roots, ∃ c ∈ cs, c.commit_hash = r ∧ c.parents = []

theorem SortWF.transport {cs ds : List CommitObject} {roots : List String}
    (hsk : ds.map skel = cs.map skel) (w : SortWF cs roots) : SortWF ds roots where
  hashNodup := by rw [map_hash_of_map_skel hsk]; exact w.hashNodup
  parentsNodup := fun c hc => by
    obtain ⟨d, hd, he⟩ := exists_skel_mem hsk hc
    rw [← skel_parents he]
    exact w.parentsNodup d hd
  childrenNodup := fun c hc => by
    obtain ⟨d, hd, he⟩ := exists_skel_mem hsk hc
    rw [← skel_children he]
    exact w.childrenNodup d hd
  childrenLinked := fun c hc ch hch => by
    obtain ⟨c0, hc0, he0⟩ := exists_skel_mem hsk hc
    have hch0 : ch ∈ c0.children := by rw [skel_children he0]; exact hch
    obtain ⟨d0, hd0, hdh, hdp⟩ := w.childrenLinked c0 hc0 ch hch0
    obtain ⟨d, hd, hde⟩ := exists_skel_mem hsk.symm hd0
    refine ⟨d, hd, ?_, ?_⟩
    · rw [skel_commit_hash hde, hdh]
    · rw [skel_parents hde, ← skel_commit_hash he0]
      exact hdp
  rootsNodup := w.rootsNodup
  rootsValid := fun r hr => by
    obtain ⟨c0, hc0, hh, hps⟩ := w.rootsValid r hr
    obtain ⟨d, hd, hde⟩ := exists_skel_mem hsk.symm hc0
    exact ⟨d, hd, by rw [skel_commit_hash hde, hh], by rw [skel_parents hde, hps]⟩

/-- The value the sorter's scratch list holds once the hashes in
`processed` have been popped: the parents not yet removed, a parent `p`
having been removed exactly when `p` was popped and the commit appears in
`p`'s children list. -/
def tempFormula (cs : List CommitObject) (processed : List String) (c : CommitObject) :
    List String :=
  c.parents.filter
    (fun p => !(processed.contains p && (childrenOf cs p).contains c.commit_hash))

/-- Invariant of the sorter's worklist loop between iterations. -/
structure SortInv (roots : List String) (cs : List CommitObject) (pl : List String)
    (i : Nat) (sorted : List String) : Prop where
  tmp : ∀ c ∈ cs, c.temp_parents = tempFormula cs (pl.take i) c
  plNodup : pl.Nodup
  plMem : ∀ h ∈ pl, ∃ c ∈ cs, c.commit_hash = h
  sortedEq : sorted = pl.take i
  iLe : i ≤ pl.length
  predOrd : ∀ j, ∀ hj : j < pl.length, ∀ p ∈ parentsOf cs (pl.get ⟨j, hj⟩),
    ∃ k, ∃ hk : k < pl.length, k < j ∧ pl.get ⟨k, hk⟩ = p
  memIff : ∀ c ∈ cs, (c.commit_hash ∈ pl ↔
    c.commit_hash ∈ roots ∨ (c.parents ≠ [] ∧ c.temp_parents = []))

theorem finalCheck_warnings (cs : List CommitObject) (sorted : List String) (w : Nat)
    (pl : List String) : (finalCheck cs sorted w pl).warnings = w := by
  unfold finalCheck
  split
  · rfl
  · split
    · rfl
    · rfl

theorem contains_false_of_not_mem {l : List String} {x : String} (h : x ∉ l) :
    l.contains x = false :=
  Bool.eq_false_iff.mpr (fun hcon => h (List.elem_iff.mp hcon))

theorem decide_eq_beq (x a : String) : decide (x = a) = (x == a) := by
  cases h : x == a
  · simp [beq_iff_eq] at h ⊢
    exact h
  · simp [beq_iff_eq] at h ⊢
    exact h

theorem contains_append_singleton (l : List String) (a x : String) :
    (l ++ [a]).contains x = (l.contains x || x == a) := by
  induction l with
  | nil =>
      cases h : x == a <;> simp [List.contains, List.elem, h]
  | cons hd tl ih =>
      cases h : x == hd <;>
        simp only [List.cons_append, List.contains, List.elem, h] <;>
        simp only [List.contains] at ih <;>
        simp [ih, decide_eq_beq]

theorem tempFormula_sublist_parents (cs : List CommitObject) (pr : List String)
    (c : CommitObject) : ∀ p ∈ tempFormula cs pr c, p ∈ c.parents := by
  intro p hp
  exact (List.mem_filter.mp hp).1

theorem tempFormula_noerase {cs : List CommitObject} {take_i : List String} {h : String}
    {c0 : CommitObject} (hmemch : (childrenOf cs h).contains c0.commit_hash = false) :
    tempFormula cs take_i c0 = c0.parents.filter
      (fun p => !((take_i ++ [h]).contains p &&
        (childrenOf cs p).contains c0.commit_hash)) := by
  unfold tempFormula
  apply List.filter_congr
  intro p _
  rw [contains_append_singleton]
  by_cases hph : p = h
  · rw [hph, hmemch, Bool.and_false, Bool.and_false]
  · rw [beq_eq_false_iff_ne.mpr hph, Bool.or_false]

theorem tempFormula_erase {cs : List CommitObject} {take_i : List String} {h : String}
    {c0 : CommitObject}
    (hpar_nd : c0.parents.Nodup)
    (hmemch : (childrenOf cs h).contains c0.commit_hash = true)
    (hnotin : take_i.contains h = false) :
    (tempFormula cs take_i c0).erase h = c0.parents.filter
      (fun p => !((take_i ++ [h]).contains p &&
        (childrenOf cs p).contains c0.commit_hash)) := by
  have hnd : (tempFormula cs take_i c0).Nodup := hpar_nd.filter _
  rw [hnd.erase_eq_filter h]
  unfold tempFormula
  rw [List.filter_filter]
  apply List.filter_congr
  intro p _
  rw [contains_append_singleton]
  by_cases hph : p = h
  · rw [hph, hmemch, beq_self_eq_true, Bool.or_true, Bool.true_and, Bool.not_true,
      bne_self_eq_false, Bool.false_and]
  · rw [beq_eq_false_iff_ne.mpr hph, Bool.or_false,
      bne_iff_ne.mpr hph, Bool.true_and]

theorem temp_mem_of_parent {cs : List CommitObject} {take_i : List String}
    {c0 : CommitObject} {h : String}
    (hhp : h ∈ c0.parents) (hnotin : take_i.contains h = false) :
    h ∈ tempFormula cs take_i c0 := by
  apply List.mem_filter.mpr
  refine ⟨hhp, ?_⟩
  rw [hnotin, Bool.false_and, Bool.not_false]

/-- One iteration of the sorter's loop preserves the invariant: popping
`pl[i]` succeeds, every removal from a child's scratch list succeeds (no
warning), and the updated state satisfies the invariant at `i + 1`. -/
theorem sort_step_invariant {roots : List String} {cs : List CommitObject}
    {pl : List String} {i : Nat} {sorted : List String}
    (w : SortWF cs roots) (inv : SortInv roots cs pl i sorted) (hlt : i < pl.length) :
    ∃ (c : CommitObject) (cs1 : List CommitObject) (pl1 : List String),
      grab_corresponding_commit cs (pl.get ⟨i, hlt⟩) = some c ∧
      processChildren cs pl 0 (pl.get ⟨i, hlt⟩) c.children = some (cs1, pl1, 0) ∧
      cs1.map skel = cs.map skel ∧
      SortWF cs1 roots ∧
      SortInv roots cs1 pl1 (i + 1) (sorted ++ [pl.get ⟨i, hlt⟩]) := by
  set h : String := pl.get ⟨i, hlt⟩ with hh
  obtain ⟨c, hcmem, hchash⟩ := inv.plMem h (pl.get_mem i hlt)
  have hg : grab_corresponding_commit cs h = some c := by
    rw [← hchash]
    exact grab_of_nodup w.hashNodup hcmem
  have hnotintake : h ∉ pl.take i := get_not_mem_take inv.plNodup hlt
  have hcontake : (pl.take i).contains h = false := contains_false_of_not_mem hnotintake
  -- every child node holds h in its scratch list, so the removal succeeds
  have hlinked : ∀ ch ∈ c.children, ∃ d ∈ cs, d.commit_hash = ch ∧ h ∈ d.parents := by
    intro ch hch
    obtain ⟨d, hdmem, hdh, hdp⟩ := w.childrenLinked c hcmem ch hch
    exact ⟨d, hdmem, hdh, hchash ▸ hdp⟩
  have hfind : ∀ ch ∈ c.children, ∃ d, grab_corresponding_commit cs ch = some d ∧
      h ∈ d.temp_parents := by
    intro ch hch
    obtain ⟨d, hdmem, hdh, hdp⟩ := hlinked ch hch
    refine ⟨d, by rw [← hdh]; exact grab_of_nodup w.hashNodup hdmem, ?_⟩
    rw [inv.tmp d hdmem]
    exact temp_mem_of_parent hdp hcontake
  have hpc := processChildren_spec c.children cs pl 0 h w.hashNodup
    (w.childrenNodup c hcmem) hfind
  set F : CommitObject → CommitObject := fun c' =>
    if c.children.contains c'.commit_hash then
      { c' with temp_parents := c'.temp_parents.erase h } else c' with hF
  set appended : List String :=
    c.children.filter (fun ch => ((tempOf cs ch).erase h).isEmpty) with happ
  set cs1 : List CommitObject := cs.map F with hcs1
  set pl1 : List String := pl ++ appended with hpl1
  have hFskel : ∀ x, skel (F x) = skel x := by
    intro x
    simp only [hF]
    by_cases hx : c.children.contains x.commit_hash
    · rw [if_pos hx]
      rfl
    · rw [if_neg hx]
  have hsk1 : cs1.map skel = cs.map skel := by
    rw [hcs1, List.map_map]
    apply List.map_congr_left
    intro c' _
    exact hFskel c'
  have w1 : SortWF cs1 roots := w.transport hsk1
  have htfc : ∀ (pr : List String) (c' : CommitObject),
      tempFormula cs1 pr c' = tempFormula cs pr c' := by
    intro pr c'
    unfold tempFormula
    apply List.filter_congr
    intro p _
    rw [childrenOf_of_skel hsk1]
  have hpfc : ∀ x, parentsOf cs1 x = parentsOf cs x := parentsOf_of_skel hsk1
  have hchc : childrenOf cs h = c.children := childrenOf_eq hg
  -- a child with the edge to h has h among its parents
  have hedge : ∀ c0 ∈ cs, c.children.contains c0.commit_hash = true → h ∈ c0.parents := by
    intro c0 hc0 hcond
    obtain ⟨d, hdmem, hdh, hdp⟩ := hlinked c0.commit_hash (List.elem_iff.mp hcond)
    have : d = c0 := eq_of_mem_hash w.hashNodup hdmem hc0 hdh
    exact this ▸ hdp
  -- a commit whose scratch list still holds h is neither a root nor enqueued
  have hnotpl : ∀ c0 ∈ cs, c.children.contains c0.commit_hash = true →
      c0.commit_hash ∉ pl ∧ c0.commit_hash ∉ roots ∧ c0.temp_parents ≠ [] := by
    intro c0 hc0 hcond
    have hhp : h ∈ c0.parents := hedge c0 hc0 hcond
    have htempmem : h ∈ c0.temp_parents := by
      rw [inv.tmp c0 hc0]
      exact temp_mem_of_parent hhp hcontake
    have htempne : c0.temp_parents ≠ [] := fun he => by
      rw [he] at htempmem
      exact (List.not_mem_nil h) htempmem
    have hnroots : c0.commit_hash ∉ roots := by
      intro hr
      obtain ⟨e, hemem, heh, hep⟩ := w.rootsValid _ hr
      have : e = c0 := eq_of_mem_hash w.hashNodup hemem hc0 heh
      rw [this] at hep
      rw [hep] at hhp
      exact (List.not_mem_nil h) hhp
    have : c0.commit_hash ∉ pl := by
      intro hin
      rcases (inv.memIff c0 hc0).mp hin with hr | ⟨_, hte⟩
      · exact hnroots hr
      · exact htempne hte
    exact ⟨this, hnroots, htempne⟩
  have happmem : ∀ x, x ∈ appended ↔
      (c.children.contains x = true ∧ ((tempOf cs x).erase h).isEmpty = true) := by
    intro x
    rw [happ]
    constructor
    · intro hx
      obtain ⟨h1, h2⟩ := List.mem_filter.mp hx
      exact ⟨List.elem_iff.mpr h1, h2⟩
    · intro ⟨h1, h2⟩
      exact List.mem_filter.mpr ⟨List.elem_iff.mp h1, h2⟩
  have hdisj : pl.Disjoint appended := by
    intro x hxp hxa
    obtain ⟨h1, _⟩ := (happmem x).mp hxa
    obtain ⟨d, hdmem, hdh, _⟩ := hlinked x (List.elem_iff.mp h1)
    have hcond : c.children.contains d.commit_hash = true := by rw [hdh]; exact h1
    obtain ⟨hnpl, _, _⟩ := hnotpl d hdmem hcond
    rw [hdh] at hnpl
    exact hnpl hxp
  have hTake : pl1.take (i + 1) = pl.take i ++ [h] := by
    rw [hpl1, List.take_append_of_le_length (by omega), List.take_succ]
    congr 1
    have hgi : pl[i]? = some pl[i] := List.getElem?_eq_getElem hlt
    rw [hgi]
    rfl
  refine ⟨c, cs1, pl1, hg, hpc, hsk1, w1, ?_⟩
  constructor
  case plNodup =>
      rw [hpl1]
      exact List.nodup_append.mpr ⟨inv.plNodup, (w.childrenNodup c hcmem).filter _, hdisj⟩
  case plMem =>
      intro x hx
      rcases List.mem_append.mp hx with hxp | hxa
      · exact exists_hash_of_skel hsk1.symm (inv.plMem x hxp)
      · obtain ⟨h1, _⟩ := (happmem x).mp hxa
        obtain ⟨d, hdmem, hdh, _⟩ := hlinked x (List.elem_iff.mp h1)
        exact exists_hash_of_skel hsk1.symm ⟨d, hdmem, hdh⟩
  case sortedEq =>
      rw [hTake, inv.sortedEq]
  case iLe =>
      rw [hpl1, List.length_append]
      omega
  case tmp =>
      intro c' hc'
      obtain ⟨c0, hc0, hFc0⟩ := List.mem_map.mp hc'
      rw [htfc, hTake, ← hFc0]
      by_cases hcond : c.children.contains c0.commit_hash
      · have hFval : F c0 = { c0 with temp_parents := c0.temp_parents.erase h } := by
          simp only [hF]
          exact if_pos hcond
        rw [hFval]
        show c0.temp_parents.erase h = tempFormula cs (pl.take i ++ [h])
          { c0 with temp_parents := c0.temp_parents.erase h }
        have hsame : tempFormula cs (pl.take i ++ [h])
            { c0 with temp_parents := c0.temp_parents.erase h } =
            c0.parents.filter (fun p => !((pl.take i ++ [h]).contains p &&
              (childrenOf cs p).contains c0.commit_hash)) := rfl
        rw [hsame, inv.tmp c0 hc0]
        exact tempFormula_erase (w.parentsNodup c0 hc0)
          (by rw [hchc]; exact hcond) hcontake
      · have hFval : F c0 = c0 := by
          simp only [hF]
          exact if_neg hcond
        rw [hFval, inv.tmp c0 hc0]
        exact tempFormula_noerase
          (by rw [hchc]; exact Bool.eq_false_iff.mpr hcond)
  case predOrd =>
      intro j hj p hp
      rw [hpfc] at hp
      by_cases hjlt : j < pl.length
      · have hget : pl1.get ⟨j, hj⟩ = pl.get ⟨j, hjlt⟩ := by
          show (pl ++ appended).get ⟨j, hj⟩ = pl.get ⟨j, hjlt⟩
          rw [List.get_eq_getElem, List.get_eq_getElem]
          exact List.getElem_append_left hjlt
        rw [hget] at hp
        obtain ⟨k, hk, hkj, hke⟩ := inv.predOrd j hjlt p hp
        refine ⟨k, by rw [hpl1, List.length_append]; omega, hkj, ?_⟩
        show (pl ++ appended).get ⟨k, _⟩ = p
        rw [List.get_eq_getElem, List.getElem_append_left hk]
        exact hke
      · -- the j-th entry is one of the newly appended children
        have hjge : pl.length ≤ j := by omega
        have hx : pl1.get ⟨j, hj⟩ ∈ appended := by
          show (pl ++ appended).get ⟨j, hj⟩ ∈ appended
          rw [List.get_eq_getElem, List.getElem_append_right hjge]
          apply List.getElem_mem
        set x : String := pl1.get ⟨j, hj⟩ with hxdef
        obtain ⟨h1, h2⟩ := (happmem x).mp hx
        obtain ⟨d, hdmem, hdh, hdp⟩ := hlinked x (List.elem_iff.mp h1)
        have hgd : grab_corresponding_commit cs x = some d := by
          rw [← hdh]
          exact grab_of_nodup w.hashNodup hdmem
        have hpdx : parentsOf cs x = d.parents := parentsOf_eq hgd
        rw [hpdx] at hp
        have htd : tempOf cs x = d.temp_parents := tempOf_eq hgd
        rw [htd, inv.tmp d hdmem] at h2
        have herasenil : (tempFormula cs (pl.take i) d).erase h = [] :=
          List.isEmpty_iff.mp h2
        have hcase : p ∈ pl.take i ∨ p = h := by
          by_cases hph : p = h
          · exact Or.inr hph
          · left
            by_contra hnot
            have hpm : p ∈ tempFormula cs (pl.take i) d :=
              temp_mem_of_parent hp (contains_false_of_not_mem hnot)
            have : p ∈ (tempFormula cs (pl.take i) d).erase h :=
              (List.mem_erase_of_ne hph).mpr hpm
            rw [herasenil] at this
            exact (List.not_mem_nil p) this
        rcases hcase with hcase | hcase
        · obtain ⟨k, hk, hki, hke⟩ := mem_take_exists_get hcase
          refine ⟨k, by rw [hpl1, List.length_append]; omega, by omega, ?_⟩
          show (pl ++ appended).get ⟨k, _⟩ = p
          rw [List.get_eq_getElem, List.getElem_append_left hk]
          exact hke
        · refine ⟨i, by rw [hpl1, List.length_append]; omega, by omega, ?_⟩
          show (pl ++ appended).get ⟨i, _⟩ = p
          rw [List.get_eq_getElem, List.getElem_append_left hlt, hcase, hh]
          rfl
  case memIff =>
      intro c' hc'
      obtain ⟨c0, hc0, hFc0⟩ := List.mem_map.mp hc'
      rw [← hFc0]
      by_cases hcond : c.children.contains c0.commit_hash
      · have hFval : F c0 = { c0 with temp_parents := c0.temp_parents.erase h } := by
          simp only [hF]
          exact if_pos hcond
        obtain ⟨hnpl, hnroots, htempne⟩ := hnotpl c0 hc0 hcond
        rw [hFval]
        show c0.commit_hash ∈ pl1 ↔ c0.commit_hash ∈ roots ∨
          (c0.parents ≠ [] ∧ c0.temp_parents.erase h = [])
        have hparne : c0.parents ≠ [] := by
          intro he
          have := hedge c0 hc0 hcond
          rw [he] at this
          exact (List.not_mem_nil h) this
        have htself : tempOf cs c0.commit_hash = c0.temp_parents :=
          tempOf_eq (grab_of_nodup w.hashNodup hc0)
        constructor
        · intro hin
          rcases List.mem_append.mp hin with hxp | hxa
          · exact absurd hxp hnpl
          · obtain ⟨_, h2⟩ := (happmem _).mp hxa
            rw [htself] at h2
            exact Or.inr ⟨hparne, List.isEmpty_iff.mp h2⟩
        · intro hor
          rcases hor with hr | ⟨_, he⟩
          · exact absurd hr hnroots
          · apply List.mem_append.mpr
            right
            apply (happmem _).mpr
            refine ⟨hcond, ?_⟩
            rw [htself, he]
            rfl
      · have hFval : F c0 = c0 := by
          simp only [hF]
          exact if_neg hcond
        rw [hFval]
        have hnapp : c0.commit_hash ∉ appended := by
          intro hxa
          obtain ⟨h1, _⟩ := (happmem _).mp hxa
          exact hcond h1
        rw [hpl1]
        constructor
        · intro hin
          rcases List.mem_append.mp hin with hxp | hxa
          · exact (inv.memIff c0 hc0).mp hxp
          · exact absurd hxa hnapp
        · intro hor
          exact List.mem_append.mpr (Or.inl ((inv.memIff c0 hc0).mpr hor))

theorem sort_drain_inv {roots : List String} {cs : List CommitObject} {pl : List String}
    {i : Nat} {sorted : List String}
    (inv : SortInv roots cs pl i sorted) (hge : ¬ i < pl.length) :
    sorted = pl ∧ SortInv roots cs pl pl.length pl := by
  have htake : pl.take i = pl := List.take_of_length_le (by omega)
  have hsorted : sorted = pl := by rw [inv.sortedEq, htake]
  refine ⟨hsorted, ?_⟩
  constructor
  case tmp =>
      intro c hc
      rw [inv.tmp c hc, htake, List.take_length]
  case plNodup => exact inv.plNodup
  case plMem => exact inv.plMem
  case sortedEq => rw [List.take_length]
  case iLe => exact le_refl _
  case predOrd => exact inv.predOrd
  case memIff => exact inv.memIff

theorem sortLoop_master {roots : List String} :
    ∀ (fuel : Nat) (cs : List CommitObject) (pl : List String) (i : Nat)
      (sorted : List String),
    SortWF cs roots → SortInv roots cs pl i sorted →
    (sortLoop fuel cs pl i sorted 0).warnings = 0 ∧
    (cs.length - i ≤ fuel →
      ∃ csf plf, sortLoop fuel cs pl i sorted 0 = finalCheck csf plf 0 plf ∧
        csf.map skel = cs.map skel ∧ SortWF csf roots ∧
        SortInv roots csf plf plf.length plf) := by
  intro fuel
  induction fuel with
  | zero =>
      intro cs pl i sorted w inv
      by_cases hlt : i < pl.length
      · rw [sortLoop_zero cs pl i sorted 0 hlt]
        refine ⟨rfl, fun hfuel => ?_⟩
        have hple : pl.length ≤ cs.length :=
          length_le_of_nodup_hash w.hashNodup inv.plNodup inv.plMem
        omega
      · rw [sortLoop_drain 0 cs pl i sorted 0 hlt]
        obtain ⟨hsorted, inv'⟩ := sort_drain_inv inv hlt
        rw [hsorted]
        exact ⟨finalCheck_warnings cs pl 0 pl, fun _ => ⟨cs, pl, rfl, rfl, w, inv'⟩⟩
  | succ fuel' ih =>
      intro cs pl i sorted w inv
      by_cases hlt : i < pl.length
      · obtain ⟨c, cs1, pl1, hg, hpc, hsk1, w1, inv1⟩ := sort_step_invariant w inv hlt
        rw [sortLoop_succ_step hlt hg hpc]
        obtain ⟨hwarn, hdrain⟩ :=
          ih cs1 pl1 (i + 1) (sorted ++ [pl.get ⟨i, hlt⟩]) w1 inv1
        refine ⟨hwarn, fun hfuel => ?_⟩
        have hlen1 : cs1.length = cs.length := by
          have := congrArg List.length hsk1
          simpa using this
        obtain ⟨csf, plf, heq, hskf, wf, invf⟩ := hdrain (by omega)
        exact ⟨csf, plf, heq, by rw [hskf, hsk1], wf, invf⟩
      · rw [sortLoop_drain (fuel' + 1) cs pl i sorted 0 hlt]
        obtain ⟨hsorted, inv'⟩ := sort_drain_inv inv hlt
        rw [hsorted]
        exact ⟨finalCheck_warnings cs pl 0 pl, fun _ => ⟨cs, pl, rfl, rfl, w, inv'⟩⟩

/-- Entering `topological_sort`: after `initialize_temp_parents`, the
roots list is a valid initial worklist state. -/
theorem sort_initial {cs : List CommitObject} {roots : List String}
    (w : SortWF cs roots) :
    SortWF (initialize_temp_parents cs) roots ∧
    SortInv roots (initialize_temp_parents cs) roots 0 [] := by
  have hsk : (initialize_temp_parents cs).map skel = cs.map skel :=
    initialize_temp_parents_skel cs
  have w' : SortWF (initialize_temp_parents cs) roots := w.transport hsk
  refine ⟨w', ?_⟩
  constructor
  case tmp =>
      intro c hc
      obtain ⟨c0, hc0, he⟩ := List.mem_map.mp hc
      rw [← he]
      show c0.parents = tempFormula (initialize_temp_parents cs) (roots.take 0)
        { c0 with temp_parents := c0.parents }
      symm
      apply List.filter_eq_self.mpr
      intro p _
      rfl
  case plNodup => exact w.rootsNodup
  case plMem =>
      intro h hh
      obtain ⟨c, hc, hch, _⟩ := w.rootsValid h hh
      exact exists_hash_of_skel hsk.symm ⟨c, hc, hch⟩
  case sortedEq => rfl
  case iLe => exact Nat.zero_le _
  case predOrd =>
      intro j hj p hp
      exfalso
      obtain ⟨c, hc, hch, hcp⟩ := w.rootsValid (roots.get ⟨j, hj⟩) (roots.get_mem j hj)
      have hpeq : parentsOf (initialize_temp_parents cs) (roots.get ⟨j, hj⟩) = c.parents := by
        rw [parentsOf_of_skel hsk,
          parentsOf_eq (by rw [← hch]; exact grab_of_nodup w.hashNodup hc)]
      rw [hpeq, hcp] at hp
      exact (List.not_mem_nil p) hp
  case memIff =>
      intro c hc
      obtain ⟨c0, hc0, he⟩ := List.mem_map.mp hc
      constructor
      · intro hin
        exact Or.inl hin
      · intro hor
        rcases hor with hr | ⟨hne, hte⟩
        · exact hr
        · exfalso
          rw [← he] at hne hte
          exact hne hte

/-- C10 sort-side core: on a well-formed graph the removal in the
sorter's inner loop never misses, for any fuel. -/
theorem topological_sort_no_warnings {cs : List CommitObject} {roots : List String}
    (w : SortWF cs roots) (fuel : Nat) :
    (topological_sort cs roots fuel).warnings = 0 := by
  obtain ⟨w', inv0⟩ := sort_initial w
  exact (sortLoop_master fuel (initialize_temp_parents cs) roots 0 [] w' inv0).1

theorem nodup_indexOf_get {l : List String} (hnd : l.Nodup) {k : Nat} (hk : k < l.length) :
    l.indexOf (l.get ⟨k, hk⟩) = k := by
  have hmem : l.get ⟨k, hk⟩ ∈ l := l.get_mem k hk
  have hlt : l.indexOf (l.get ⟨k, hk⟩) < l.length := List.indexOf_lt_length.mpr hmem
  have hget : l.get ⟨l.indexOf (l.get ⟨k, hk⟩), hlt⟩ = l.get ⟨k, hk⟩ := List.indexOf_get hlt
  have hinj := List.nodup_iff_injective_get.mp hnd
  have hfin := hinj hget
  have hv := congrArg Fin.val hfin
  simpa using hv

theorem filter_eq_nil_of_false {l : List String} {p : String → Bool}
    (h : ∀ a ∈ l, p a = false) : l.filter p = [] :=
  List.filter_eq_nil.mpr (fun a ha => by rw [h a ha]; simp)

/-- Complete run of `topological_sort` on a well-formed, parent-closed,
fully linked, ranked (acyclic) graph: the queue drains, both terminal
checks pass, and the returned order puts every parent before each of its
children. -/
theorem sort_full_run {cs : List CommitObject} {roots : List String} (rank : String → Nat)
    (fuel : Nat) (w : SortWF cs roots)
    (hclosed : ∀ c ∈ cs, ∀ p ∈ c.parents, ∃ d ∈ cs, d.commit_hash = p)
    (hdir2 : ∀ c ∈ cs, ∀ p ∈ c.parents, ∀ d ∈ cs, d.commit_hash = p →
      c.commit_hash ∈ d.children)
    (hrootsC : ∀ c ∈ cs, c.parents = [] → c.commit_hash ∈ roots)
    (hrank : ∀ c ∈ cs, ∀ p ∈ c.parents, rank p < rank c.commit_hash)
    (hfuel : cs.length ≤ fuel) :
    ∃ plf csf,
      topological_sort cs roots fuel = ⟨SortOutcome.ok plf, 0, plf, csf⟩ ∧
      plf.Nodup ∧ plf.length = cs.length ∧
      (∀ c ∈ cs, c.commit_hash ∈ plf) ∧
      (∀ c ∈ cs, ∀ p ∈ c.parents, plf.indexOf p < plf.indexOf c.commit_hash) := by
  obtain ⟨w', inv0⟩ := sort_initial w
  have hlen0 : (initialize_temp_parents cs).length = cs.length := List.length_map _ _
  obtain ⟨_, hdrain⟩ := sortLoop_master fuel (initialize_temp_parents cs) roots 0 [] w' inv0
  obtain ⟨csf, plf, heq, hskf0, wf, invf⟩ := hdrain (by omega)
  have hskf : csf.map skel = cs.map skel := by
    rw [hskf0, initialize_temp_parents_skel]
  have hlenf : csf.length = cs.length := by
    have := congrArg List.length hskf
    simpa using this
  have hcomplete : ∀ c ∈ cs, c.commit_hash ∈ plf := by
    have main : ∀ n, ∀ c ∈ cs, rank c.commit_hash < n → c.commit_hash ∈ plf := by
      intro n
      induction n with
      | zero => intro c _ h0; omega
      | succ n ihn =>
          intro c hc hrk
          obtain ⟨cf, hcf, hecf⟩ := exists_skel_mem hskf.symm hc
          have hhash : cf.commit_hash = c.commit_hash := skel_commit_hash hecf
          have hpar : cf.parents = c.parents := skel_parents hecf
          by_cases hpe : c.parents = []
          · have hr : c.commit_hash ∈ roots := hrootsC c hc hpe
            have hin := (invf.memIff cf hcf).mpr (Or.inl (by rw [hhash]; exact hr))
            rw [hhash] at hin
            exact hin
          · have htemp : cf.temp_parents = [] := by
              rw [invf.tmp cf hcf]
              unfold tempFormula
              apply filter_eq_nil_of_false
              intro p hp
              have hpc : p ∈ c.parents := by rw [← hpar]; exact hp
              obtain ⟨d, hd, hdh⟩ := hclosed c hc p hpc
              have hpin : p ∈ plf := by
                have hdrank : rank d.commit_hash < n := by
                  rw [hdh]
                  have := hrank c hc p hpc
                  omega
                have := ihn d hd hdrank
                rw [hdh] at this
                exact this
              have hchild : c.commit_hash ∈ d.children := hdir2 c hc p hpc d hd hdh
              have h1 : List.contains plf p = true := List.elem_iff.mpr hpin
              have h2 : childrenOf csf p = d.children := by
                rw [childrenOf_of_skel hskf, ← hdh,
                  childrenOf_eq (grab_of_nodup w.hashNodup hd)]
              have h3 : (childrenOf csf p).contains cf.commit_hash = true := by
                rw [h2, hhash]
                exact List.elem_iff.mpr hchild
              rw [List.take_length, h1, h3]
              rfl
            have hne : cf.parents ≠ [] := by rw [hpar]; exact hpe
            have hin := (invf.memIff cf hcf).mpr (Or.inr ⟨hne, htemp⟩)
            rw [hhash] at hin
            exact hin
    intro c hc
    exact main (rank c.commit_hash + 1) c hc (Nat.lt_succ_self _)
  have halltemp : ∀ cf ∈ csf, cf.temp_parents = [] := by
    intro cf hcf
    obtain ⟨c, hc, hec⟩ := exists_skel_mem hskf hcf
    rw [invf.tmp cf hcf]
    unfold tempFormula
    apply filter_eq_nil_of_false
    intro p hp
    have hpc : p ∈ c.parents := by rw [skel_parents hec]; exact hp
    obtain ⟨d, hd, hdh⟩ := hclosed c hc p hpc
    have hpin : p ∈ plf := by rw [← hdh]; exact hcomplete d hd
    have hchild : c.commit_hash ∈ d.children := hdir2 c hc p hpc d hd hdh
    have h1 : List.contains plf p = true := List.elem_iff.mpr hpin
    have h2 : childrenOf csf p = d.children := by
      rw [childrenOf_of_skel hskf, ← hdh, childrenOf_eq (grab_of_nodup w.hashNodup hd)]
    have h3 : (childrenOf csf p).contains cf.commit_hash = true := by
      rw [h2, ← skel_commit_hash hec]
      exact List.elem_iff.mpr hchild
    rw [List.take_length, h1, h3]
    rfl
  have hplen : plf.length = cs.length := by
    have hle : plf.length ≤ csf.length :=
      length_le_of_nodup_hash wf.hashNodup invf.plNodup invf.plMem
    have hge : cs.length ≤ plf.length := by
      have hsub : cs.map CommitObject.commit_hash ⊆ plf := by
        intro x hx
        obtain ⟨c, hc, he⟩ := List.mem_map.mp hx
        rw [← he]
        exact hcomplete c hc
      have hlm := (w.hashNodup.subperm hsub).length_le
      rw [List.length_map] at hlm
      exact hlm
    omega
  have hfc : finalCheck csf plf 0 plf = ⟨SortOutcome.ok plf, 0, plf, csf⟩ := by
    unfold finalCheck
    have hany : csf.any (fun c => !c.temp_parents.isEmpty) = false := by
      apply Bool.eq_false_iff.mpr
      intro hany
      obtain ⟨cf, hcf, hb⟩ := List.any_eq_true.mp hany
      rw [halltemp cf hcf] at hb
      simp at hb
    rw [hany]
    have hnne : ¬ csf.length ≠ plf.length := fun hne => hne (by omega)
    rw [if_neg (by simp), if_neg hnne]
  refine ⟨plf, csf, ?_, invf.plNodup, hplen, hcomplete, ?_⟩
  · show topological_sort cs roots fuel = _
    unfold topological_sort
    rw [heq, hfc]
  · intro c hc p hp
    have hcin : c.commit_hash ∈ plf := hcomplete c hc
    obtain ⟨⟨k, hk⟩, hke⟩ := List.mem_iff_get.mp hcin
    obtain ⟨cf, hcfm, hec⟩ := exists_skel_mem hskf.symm hc
    have hgcf : grab_corresponding_commit csf (plf.get ⟨k, hk⟩) = some cf := by
      rw [hke, ← skel_commit_hash hec]
      exact grab_of_nodup wf.hashNodup hcfm
    have hpof : parentsOf csf (plf.get ⟨k, hk⟩) = c.parents := by
      rw [parentsOf_eq hgcf, skel_parents hec]
    obtain ⟨k', hk', hk'k, hk'e⟩ := invf.predOrd k hk p (by rw [hpof]; exact hp)
    have hic : plf.indexOf c.commit_hash = k := by
      rw [← hke]
      exact nodup_indexOf_get invf.plNodup hk
    have hip : plf.indexOf p = k' := by
      rw [← hk'e]
      exact nodup_indexOf_get invf.plNodup hk'
    omega

/-- C1 (confirmed): on any acyclic graph as built (well-formed links,
parent-closed, parentless nodes seeded as roots) and enough fuel for the
worklist (one unit per node), `topological_sort` returns its worklist as
the result sequence, the sequence covers every node exactly once, and
every parent occupies an earlier position than each of its children.
Acyclicity enters as a rank certificate: a function that strictly
decreases from child to parent. -/
theorem claimC1_topological_sort_sorts (cs : List CommitObject) (roots : List String)
    (rank : String → Nat) (fuel : Nat) (w : SortWF cs roots)
    (hclosed : ∀ c ∈ cs, ∀ p ∈ c.parents, ∃ d ∈ cs, d.commit_hash = p)
    (hdir2 : ∀ c ∈ cs, ∀ p ∈ c.parents, ∀ d ∈ cs, d.commit_hash = p →
      c.commit_hash ∈ d.children)
    (hrootsC : ∀ c ∈ cs, c.parents = [] → c.commit_hash ∈ roots)
    (hrank : ∀ c ∈ cs, ∀ p ∈ c.parents, rank p < rank c.commit_hash)
    (hfuel : cs.length ≤ fuel) :
    (topological_sort cs roots fuel).outcome =
        SortOutcome.ok (topological_sort cs roots fuel).final_pl ∧
      (topological_sort cs roots fuel).final_pl.length = cs.length ∧
      (∀ c ∈ cs, c.commit_hash ∈ (topological_sort cs roots fuel).final_pl) ∧
      (∀ c ∈ cs, ∀ p ∈ c.parents,
        (topological_sort cs roots fuel).final_pl.indexOf p <
          (topological_sort cs roots fuel).final_pl.indexOf c.commit_hash) := by
  obtain ⟨plf, csf, heq, _, hlen, hcomp, hord⟩ :=
    sort_full_run rank fuel w hclosed hdir2 hrootsC hrank hfuel
  rw [heq]
  exact ⟨rfl, hlen, hcomp, hord⟩

/-- C1 witness: the sorting theorem applied to the two-commit chain
`a ← b` with rank 0 for `a` and 1 for `b`. -/
theorem claimC1_witness :
    (topological_sort [⟨"a", [], ["b"], []⟩, ⟨"b", ["a"], [], []⟩] ["a"] 2).outcome =
        SortOutcome.ok (topological_sort [⟨"a", [], ["b"], []⟩, ⟨"b", ["a"], [], []⟩]
          ["a"] 2).final_pl ∧
      (topological_sort [⟨"a", [], ["b"], []⟩, ⟨"b", ["a"], [], []⟩]
          ["a"] 2).final_pl.length = 2 ∧
      (∀ c ∈ [(⟨"a", [], ["b"], []⟩ : CommitObject), ⟨"b", ["a"], [], []⟩],
        c.commit_hash ∈ (topological_sort [⟨"a", [], ["b"], []⟩, ⟨"b", ["a"], [], []⟩]
          ["a"] 2).final_pl) ∧
      (∀ c ∈ [(⟨"a", [], ["b"], []⟩ : CommitObject), ⟨"b", ["a"], [], []⟩],
        ∀ p ∈ c.parents,
        (topological_sort [⟨"a", [], ["b"], []⟩, ⟨"b", ["a"], [], []⟩]
          ["a"] 2).final_pl.indexOf p <
        (topological_sort [⟨"a", [], ["b"], []⟩, ⟨"b", ["a"], [], []⟩]
          ["a"] 2).final_pl.indexOf c.commit_hash) :=
  claimC1_topological_sort_sorts
    [⟨"a", [], ["b"], []⟩, ⟨"b", ["a"], [], []⟩] ["a"]
    (fun h => if h = "b" then 1 else 0) 2
    ⟨by decide, by decide, by decide, by decide, by decide, by decide⟩
    (by decide) (by decide) (by decide) (by decide) (by decide)

/-- Fuel monotonicity: once the loop finishes (no timeout) with some
fuel, any larger fuel gives the identical run. -/
theorem sortLoop_mono : ∀ (f g : Nat) (cs : List CommitObject) (pl : List String)
    (i : Nat) (sorted : List String) (warn : Nat),
    f ≤ g → (sortLoop f cs pl i sorted warn).outcome ≠ SortOutcome.timeout →
    sortLoop g cs pl i sorted warn = sortLoop f cs pl i sorted warn := by
  intro f
  induction f with
  | zero =>
      intro g cs pl i sorted warn _ hnt
      by_cases hlt : i < pl.length
      · rw [sortLoop_zero cs pl i sorted warn hlt] at hnt
        exact absurd rfl hnt
      · rw [sortLoop_drain 0 cs pl i sorted warn hlt,
          sortLoop_drain g cs pl i sorted warn hlt]
  | succ f' ih =>
      intro g cs pl i sorted warn hle hnt
      cases g with
      | zero => omega
      | succ g' =>
          by_cases hlt : i < pl.length
          · cases hg : grab_corresponding_commit cs (pl.get ⟨i, hlt⟩) with
            | none =>
                rw [sortLoop_succ_crash1 hlt hg, sortLoop_succ_crash1 hlt hg]
            | some c =>
                cases hpc : processChildren cs pl warn (pl.get ⟨i, hlt⟩) c.children with
                | none =>
                    rw [sortLoop_succ_crash2 hlt hg hpc, sortLoop_succ_crash2 hlt hg hpc]
                | some out =>
                    obtain ⟨cs1, pl1, warn1⟩ := out
                    rw [sortLoop_succ_step hlt hg hpc] at hnt
                    rw [sortLoop_succ_step hlt hg hpc, sortLoop_succ_step hlt hg hpc]
                    exact ih g' cs1 pl1 (i + 1) (sorted ++ [pl.get ⟨i, hlt⟩]) warn1
                      (by omega) hnt
          · rw [sortLoop_drain (f' + 1) cs pl i sorted warn hlt,
              sortLoop_drain (g' + 1) cs pl i sorted warn hlt]

/-- With enough fuel, a reachable parent cycle makes the drained queue
leave some scratch list non-empty, so the run ends in the cycle check. -/
theorem sort_cycle_run {cs : List CommitObject} {roots : List String} {cyc : List String}
    (fuel : Nat) (w : SortWF cs roots) (hne : cyc ≠ [])
    (hcyc : ∀ j, ∀ hj : j < cyc.length, ∃ c ∈ cs, cyc.get ⟨j, hj⟩ = c.commit_hash ∧
      cyc.get ⟨(j + 1) % cyc.length, Nat.mod_lt _ (by omega)⟩ ∈ c.parents)
    (hfuel : cs.length ≤ fuel) :
    (topological_sort cs roots fuel).outcome = SortOutcome.cycleDetected := by
  obtain ⟨w', inv0⟩ := sort_initial w
  have hlen0 : (initialize_temp_parents cs).length = cs.length := List.length_map _ _
  obtain ⟨_, hdrain⟩ := sortLoop_master fuel (initialize_temp_parents cs) roots 0 [] w' inv0
  obtain ⟨csf, plf, heq, hskf0, wf, invf⟩ := hdrain (by omega)
  have hskf : csf.map skel = cs.map skel := by
    rw [hskf0, initialize_temp_parents_skel]
  have hcycf : ∀ j, ∀ hj : j < cyc.length, ∃ cf ∈ csf,
      cyc.get ⟨j, hj⟩ = cf.commit_hash ∧
      cyc.get ⟨(j + 1) % cyc.length, Nat.mod_lt _ (by omega)⟩ ∈ cf.parents := by
    intro j hj
    obtain ⟨c, hc, hch, hpnext⟩ := hcyc j hj
    obtain ⟨cf, hcf, hec⟩ := exists_skel_mem hskf.symm hc
    refine ⟨cf, hcf, by rw [hch, skel_commit_hash hec], ?_⟩
    rw [skel_parents hec]
    exact hpnext
  have hnotin : ∀ k, ∀ hk : k < plf.length, plf.get ⟨k, hk⟩ ∉ cyc := by
    intro k
    induction k using Nat.strong_induction_on with
    | _ k ihk =>
        intro hk hmem
        obtain ⟨⟨j, hj⟩, hje⟩ := List.mem_iff_get.mp hmem
        obtain ⟨cf, hcf, hch, hpnext⟩ := hcycf j hj
        have hg : grab_corresponding_commit csf (plf.get ⟨k, hk⟩) = some cf := by
          rw [← hje, hch]
          exact grab_of_nodup wf.hashNodup hcf
        have hpin : cyc.get ⟨(j + 1) % cyc.length, Nat.mod_lt _ (by omega)⟩ ∈
            parentsOf csf (plf.get ⟨k, hk⟩) := by
          rw [parentsOf_eq hg]
          exact hpnext
        obtain ⟨k', hk', hk'k, hk'e⟩ := invf.predOrd k hk _ hpin
        apply ihk k' hk'k hk'
        rw [hk'e]
        exact cyc.get_mem _ _
  have hlenpos : 0 < cyc.length := List.length_pos.mpr hne
  obtain ⟨cf0, hcf0, hch0, hpnext0⟩ := hcycf 0 hlenpos
  have hpincyc : cyc.get ⟨(0 + 1) % cyc.length, Nat.mod_lt _ (by omega)⟩ ∈ cyc :=
    cyc.get_mem _ _
  have hpnotin : cyc.get ⟨(0 + 1) % cyc.length, Nat.mod_lt _ (by omega)⟩ ∉ plf := by
    intro hin
    obtain ⟨⟨k, hk⟩, hke⟩ := List.mem_iff_get.mp hin
    apply hnotin k hk
    rw [hke]
    exact hpincyc
  have htempne : cf0.temp_parents ≠ [] := by
    rw [invf.tmp cf0 hcf0]
    intro hnil
    have hmem : cyc.get ⟨(0 + 1) % cyc.length, Nat.mod_lt _ (by omega)⟩ ∈
        tempFormula csf (plf.take plf.length) cf0 := by
      rw [List.take_length]
      exact temp_mem_of_parent hpnext0 (contains_false_of_not_mem hpnotin)
    rw [hnil] at hmem
    exact (List.not_mem_nil _) hmem
  have hany : csf.any (fun c => !c.temp_parents.isEmpty) = true := by
    apply List.any_eq_true.mpr
    refine ⟨cf0, hcf0, ?_⟩
    cases hemp : cf0.temp_parents.isEmpty
    · rfl
    · exact absurd (List.isEmpty_iff.mp hemp) htempne
  unfold topological_sort
  rw [heq]
  unfold finalCheck
  rw [hany, if_pos rfl]

/-- C2 (confirmed): given a parent cycle whose hashes are all present in
the graph, a sufficiently fueled `topological_sort` exits through the
cycle check (`cycle in .git graph detected`, `sys.exit(1)`), and no
amount of fuel can make it return an ordering. -/
theorem claimC2_cycle_detected (cs : List CommitObject) (roots : List String)
    (cyc : List String) (fuel : Nat) (w : SortWF cs roots) (hne : cyc ≠ [])
    (hcyc : ∀ j, ∀ hj : j < cyc.length, ∃ c ∈ cs, cyc.get ⟨j, hj⟩ = c.commit_hash ∧
      cyc.get ⟨(j + 1) % cyc.length, Nat.mod_lt _ (by omega)⟩ ∈ c.parents) :
    (cs.length ≤ fuel →
      (topological_sort cs roots fuel).outcome = SortOutcome.cycleDetected) ∧
    (∀ l, (topological_sort cs roots fuel).outcome ≠ SortOutcome.ok l) := by
  refine ⟨fun hfuel => sort_cycle_run fuel w hne hcyc hfuel, ?_⟩
  intro l hok
  have hnt : (topological_sort cs roots fuel).outcome ≠ SortOutcome.timeout := by
    rw [hok]
    intro hcontra
    exact SortOutcome.noConfusion hcontra
  have hbig : (topological_sort cs roots (max fuel cs.length)).outcome =
      SortOutcome.cycleDetected :=
    sort_cycle_run (max fuel cs.length) w hne hcyc (le_max_right _ _)
  have hmono := sortLoop_mono fuel (max fuel cs.length)
    (initialize_temp_parents cs) roots 0 [] 0 (le_max_left _ _) hnt
  unfold topological_sort at hbig hok
  rw [hmono, hok] at hbig
  exact SortOutcome.noConfusion hbig

/-- C2 witness: the two-commit cycle `a` lists `b` as parent and `b`
lists `a`; the sorter reports the cycle and can never return an
ordering. -/
theorem claimC2_witness :
    ((topological_sort [⟨"a", ["b"], ["b"], []⟩, ⟨"b", ["a"], ["a"], []⟩] [] 2).outcome
        = SortOutcome.cycleDetected) ∧
    (∀ l, (topological_sort [⟨"a", ["b"], ["b"], []⟩, ⟨"b", ["a"], ["a"], []⟩]
        [] 5).outcome ≠ SortOutcome.ok l) := by
  have h2 := claimC2_cycle_detected
    [⟨"a", ["b"], ["b"], []⟩, ⟨"b", ["a"], ["a"], []⟩] [] ["a", "b"] 2
    ⟨by decide, by decide, by decide, by decide, by decide, by decide⟩
    (by decide) (by decide)
  have h5 := claimC2_cycle_detected
    [⟨"a", ["b"], ["b"], []⟩, ⟨"b", ["a"], ["a"], []⟩] [] ["a", "b"] 5
    ⟨by decide, by decide, by decide, by decide, by decide, by decide⟩
    (by decide) (by decide)
  exact ⟨h2.1 (by decide), h5.2⟩

/-! ## Builder invariants -/

theorem dictGet_some_mem : ∀ {d : List (String × Bool)} {k : String} {b : Bool},
    dictGet d k = some b → (k, b) ∈ d := by
  intro d
  induction d with
  | nil => intro k b h; simp [dictGet] at h
  | cons p rest ih =>
      intro k b h
      rw [dictGet_cons] at h
      by_cases hp : p.1 = k
      · rw [if_pos hp, Option.some_inj] at h
        apply List.mem_cons.mpr
        apply Or.inl
        rw [← hp, ← h]
      · rw [if_neg hp] at h
        exact List.mem_cons_of_mem _ (ih h)

theorem mem_dictSet : ∀ {d : List (String × Bool)} {k : String} {v : Bool}
    {q : String × Bool}, q ∈ dictSet d k v → q = (k, v) ∨ q ∈ d := by
  intro d
  induction d with
  | nil =>
      intro k v q h
      simp [dictSet] at h
      exact Or.inl h
  | cons p rest ih =>
      intro k v q h
      rw [dictSet_cons] at h
      by_cases hp : p.1 = k
      · rw [if_pos hp] at h
        rcases List.mem_cons.mp h with he | hm
        · exact Or.inl he
        · exact Or.inr (List.mem_cons_of_mem _ hm)
      · rw [if_neg hp] at h
        rcases List.mem_cons.mp h with he | hm
        · exact Or.inr (he ▸ List.mem_cons_self _ _)
        · rcases ih hm with he | hm'
          · exact Or.inl he
          · exact Or.inr (List.mem_cons_of_mem _ hm')

theorem map_hash_of_map_hp {cs ds : List CommitObject}
    (h : cs.map hp = ds.map hp) :
    cs.map CommitObject.commit_hash = ds.map CommitObject.commit_hash := by
  have h1 : cs.map CommitObject.commit_hash = (cs.map hp).map Prod.fst := by
    rw [List.map_map]; rfl
  have h2 : ds.map CommitObject.commit_hash = (ds.map hp).map Prod.fst := by
    rw [List.map_map]; rfl
  rw [h1, h2, h]

theorem exists_hash_of_map_hash {cs ds : List CommitObject} {x : String}
    (h : cs.map CommitObject.commit_hash = ds.map CommitObject.commit_hash)
    (he : ∃ c ∈ cs, c.commit_hash = x) : ∃ d ∈ ds, d.commit_hash = x := by
  obtain ⟨c, hc, hch⟩ := he
  have : x ∈ ds.map CommitObject.commit_hash := by
    rw [← h]
    exact List.mem_map.mpr ⟨c, hc, hch⟩
  obtain ⟨d, hd, hdh⟩ := List.mem_map.mp this
  exact ⟨d, hd, hdh⟩

/-- What one run of the builder's parent loop preserves, with no
well-formedness assumptions: hash/parents skeletons, worklist prefix,
existing dictionary values, and the falseness of any new values. -/
theorem processParents_preserve : ∀ (parents : List String) (cs : List CommitObject)
    (vis : List (String × Bool)) (pl : List String) (chash : String)
    (cs2 : List CommitObject) (vis2 : List (String × Bool)) (pl2 : List String),
    processParents cs vis pl chash parents = some (cs2, vis2, pl2) →
    cs2.map hp = cs.map hp ∧
    (∃ suf, pl2 = pl ++ suf) ∧
    (∀ k b, dictGet vis k = some b → dictGet vis2 k = some b) ∧
    (∀ q ∈ vis2, q ∈ vis ∨ q.2 = false) := by
  intro parents
  induction parents with
  | nil =>
      intro cs vis pl chash cs2 vis2 pl2 h
      rw [processParents_nil, Option.some_inj] at h
      obtain ⟨h1, h2, h3⟩ : cs = cs2 ∧ vis = vis2 ∧ pl = pl2 := by simpa using h
      exact ⟨by rw [← h1], ⟨[], by rw [← h3, List.append_nil]⟩,
        fun k b hb => by rw [← h2]; exact hb, fun q hq => Or.inl (by rw [h2]; exact hq)⟩
  | cons p rest ih =>
      intro cs vis pl chash cs2 vis2 pl2 h
      cases hg : grab_corresponding_commit cs p with
      | none => rw [processParents_cons_none hg] at h; exact absurd h (by simp)
      | some d =>
          rw [processParents_cons_some hg] at h
          obtain ⟨ihp, ⟨suf, ihpl⟩, ihget, ihorig⟩ := ih _ _ _ _ _ _ _ h
          refine ⟨?_, ?_, ?_, ?_⟩
          · rw [ihp]
            apply update_first_map
            intro c
            rfl
          · by_cases henq : (dictGet vis p).isNone
            · rw [if_pos henq] at ihpl
              exact ⟨[p] ++ suf, by rw [ihpl, List.append_assoc]⟩
            · rw [if_neg henq] at ihpl
              exact ⟨suf, ihpl⟩
          · intro k b hb
            apply ihget
            by_cases henq : (dictGet vis p).isNone
            · rw [if_pos henq]
              have hkp : k ≠ p := by
                intro he
                rw [he] at hb
                rw [hb] at henq
                simp at henq
              rw [dictGet_dictSet]
              rw [if_neg hkp]
              exact hb
            · rw [if_neg henq]
              exact hb
          · intro q hq
            rcases ihorig q hq with hin | hf
            · by_cases henq : (dictGet vis p).isNone
              · rw [if_pos henq] at hin
                rcases mem_dictSet hin with he | hm
                · exact Or.inr (by rw [he])
                · exact Or.inl hm
              · rw [if_neg henq] at hin
                exact Or.inl hin
            · exact Or.inr hf

/-- If the builder's worklist loop completes (returns `ok`), every hash
on the worklist had a commit record when it was popped. -/
theorem buildLoop_ok_lookups : ∀ (fuel : Nat) (cs : List CommitObject)
    (visited : List (String × Bool)) (pl : List String) (i : Nat) (roots : List String)
    (csOut : List CommitObject) (rootsOut : List String),
    buildLoop fuel cs visited pl i roots = BuildResult.ok csOut rootsOut →
    (∀ x ∈ pl.take i, ∃ c ∈ cs, c.commit_hash = x) →
    (∀ q ∈ visited, q.2 = true → ∃ c ∈ cs, c.commit_hash = q.1) →
    ∀ x ∈ pl, ∃ c ∈ cs, c.commit_hash = x := by
  intro fuel
  induction fuel with
  | zero =>
      intro cs visited pl i roots csOut rootsOut heq htake htruth
      by_cases hlt : i < pl.length
      · rw [buildLoop_zero cs visited pl i roots hlt] at heq
        exact absurd heq (by simp)
      · intro x hx
        apply htake
        rw [List.take_of_length_le (by omega)]
        exact hx
  | succ fuel' ih =>
      intro cs visited pl i roots csOut rootsOut heq htake htruth
      by_cases hlt : i < pl.length
      · have hTake1 : pl.take (i + 1) = pl.take i ++ [pl.get ⟨i, hlt⟩] := by
          rw [List.take_succ]
          congr 1
          have hgi : pl[i]? = some pl[i] := List.getElem?_eq_getElem hlt
          rw [hgi]
          rfl
        by_cases hv : dictGet visited (pl.get ⟨i, hlt⟩) = some true
        · rw [buildLoop_succ_skip hlt hv] at heq
          apply ih _ _ _ _ _ _ _ heq _ htruth
          intro x hx
          rw [hTake1] at hx
          rcases List.mem_append.mp hx with hm | hm
          · exact htake x hm
          · rw [List.mem_singleton.mp hm]
            exact htruth _ (dictGet_some_mem hv) rfl
        · cases hg : grab_corresponding_commit cs (pl.get ⟨i, hlt⟩) with
          | none =>
              rw [buildLoop_succ_crash1 hlt hv hg] at heq
              exact absurd heq (by simp)
          | some c =>
              cases hpp : processParents cs (dictSet visited (pl.get ⟨i, hlt⟩) true) pl
                  (pl.get ⟨i, hlt⟩) c.parents with
              | none =>
                  rw [buildLoop_succ_crash2 hlt hv hg hpp] at heq
                  exact absurd heq (by simp)
              | some out =>
                  obtain ⟨cs2, vis2, pl2⟩ := out
                  rw [buildLoop_succ_step hlt hv hg hpp] at heq
                  obtain ⟨hhp, ⟨suf, hpl2⟩, hget, horig⟩ :=
                    processParents_preserve _ _ _ _ _ _ _ _ hpp
                  have hhash : cs2.map CommitObject.commit_hash =
                      cs.map CommitObject.commit_hash := map_hash_of_map_hp hhp
                  have hcmem := grab_some_mem hg
                  have hnext := ih _ _ _ _ _ _ _ heq ?_ ?_
                  · intro x hx
                    apply exists_hash_of_map_hash hhash
                    exact hnext x (by rw [hpl2]; exact List.mem_append.mpr (Or.inl hx))
                  · intro x hx
                    have hx' : x ∈ pl.take (i + 1) := by
                      rw [hpl2, List.take_append_of_le_length (by omega)] at hx
                      exact hx
                    rw [hTake1] at hx'
                    apply exists_hash_of_map_hash hhash.symm
                    rcases List.mem_append.mp hx' with hm | hm
                    · exact htake x hm
                    · rw [List.mem_singleton.mp hm]
                      exact ⟨c, hcmem.1, hcmem.2⟩
                  · intro q hq hqt
                    apply exists_hash_of_map_hash hhash.symm
                    rcases horig q hq with hin | hf
                    · rcases mem_dictSet hin with he | hm
                      · rw [he]
                        exact ⟨c, hcmem.1, hcmem.2⟩
                      · exact htruth q hm hqt
                    · rw [hqt] at hf
                      exact absurd hf (by simp)
      · intro x hx
        apply htake
        rw [List.take_of_length_le (by omega)]
        exact hx

/-- C6 (corrected): `build_commit_graph` contains no missing-commit
diagnostic: a branch head or traversal-reached parent hash without a
record makes `grab_corresponding_commit` return `None`, and the
subsequent attribute access crashes the run (non-zero exit via an
unhandled `AttributeError` traceback).  Consequently a completed build
certifies that every branch head had a record. -/
theorem claimC6_build_ok_heads_present (branches : List (String × List String))
    (records : List CommitObject) (fuel : Nat) (csOut : List CommitObject)
    (rootsOut : List String)
    (hok : build_commit_graph branches records fuel = BuildResult.ok csOut rootsOut) :
    ∀ hb ∈ branches.map Prod.fst, ∃ c ∈ records, c.commit_hash = hb := by
  unfold build_commit_graph at hok
  have hall := buildLoop_ok_lookups fuel records [] (initial_processing_list branches)
    0 [] csOut rootsOut hok (by intro x hx; simp at hx) (by intro q hq; simp at hq)
  intro hb hhb
  apply hall
  rw [initial_processing_list_eq]
  exact hhb

/-- C6 witness: the theorem applied to a one-commit repository whose
build completes. -/
theorem claimC6_witness :
    ∃ c ∈ [(⟨"a", [], [], []⟩ : CommitObject)], c.commit_hash = "a" :=
  claimC6_build_ok_heads_present [("a", ["main"])] [⟨"a", [], [], []⟩] 2
    [⟨"a", [], [], []⟩] ["a"] (by decide) "a" (by decide)

theorem hp_hash {c d : CommitObject} (h : hp c = hp d) : c.commit_hash = d.commit_hash :=
  congrArg Prod.fst h

theorem hp_parents {c d : CommitObject} (h : hp c = hp d) : c.parents = d.parents :=
  congrArg Prod.snd h

theorem exists_hp_mem {cs ds : List CommitObject} (h : cs.map hp = ds.map hp)
    {c : CommitObject} (hc : c ∈ cs) : ∃ d ∈ ds, hp d = hp c := by
  have : hp c ∈ ds.map hp := h ▸ List.mem_map.mpr ⟨c, hc, rfl⟩
  obtain ⟨d, hd, he⟩ := List.mem_map.mp this
  exact ⟨d, hd, he⟩

theorem nodup_append_singleton {l : List String} {a : String}
    (hnd : l.Nodup) (hna : a ∉ l) : (l ++ [a]).Nodup := by
  apply List.nodup_append.mpr
  refine ⟨hnd, List.nodup_singleton a, ?_⟩
  intro x hx hxa
  rw [List.mem_singleton.mp hxa] at hx
  exact hna hx

theorem take_subset_succ (pl : List String) (i : Nat) : pl.take i ⊆ pl.take (i + 1) := by
  rw [List.take_succ]
  exact List.subset_append_left _ _

theorem removeFirstCommit_sublist (l : List CommitObject) (h : String) :
    List.Sublist (removeFirstCommit l h) l := by
  induction l with
  | nil => exact List.Sublist.refl _
  | cons c rest ih =>
      by_cases hc : c.commit_hash = h
      · rw [removeFirstCommit, if_pos hc]
        exact List.sublist_cons_self _ _
      · rw [removeFirstCommit, if_neg hc]
        exact ih.cons₂ c

theorem removeUnvisitedLoop_sublist (v : List String) :
    ∀ (k : Nat) (cs : List CommitObject) (i : Nat),
    List.Sublist (removeUnvisitedLoop v k cs i) cs := by
  intro k
  induction k with
  | zero => intro cs i; exact List.Sublist.refl _
  | succ k ih =>
      intro cs i
      rw [removeUnvisitedLoop]
      by_cases hlt : i < cs.length
      · rw [dif_pos hlt]
        by_cases hv : (cs.get ⟨i, hlt⟩).commit_hash ∈ v
        · rw [if_pos hv]
          exact ih cs (i + 1)
        · rw [if_neg hv]
          exact (ih _ (i + 1)).trans (removeFirstCommit_sublist _ _)
      · rw [dif_neg hlt]

theorem mem_removeFirstCommit {l : List CommitObject} {c : CommitObject} {h : String}
    (hc : c ∈ l) (hne : c.commit_hash ≠ h) : c ∈ removeFirstCommit l h := by
  induction l with
  | nil => simp at hc
  | cons d rest ih =>
      by_cases hd : d.commit_hash = h
      · rw [removeFirstCommit, if_pos hd]
        rcases List.mem_cons.mp hc with he | hm
        · rw [he] at hne
          exact absurd hd hne
        · exact hm
      · rw [removeFirstCommit, if_neg hd]
        rcases List.mem_cons.mp hc with he | hm
        · rw [he]
          exact List.mem_cons_self _ _
        · exact List.mem_cons_of_mem _ (ih hm)

theorem mem_removeUnvisitedLoop (v : List String) :
    ∀ (k : Nat) (cs : List CommitObject) (i : Nat) {c : CommitObject},
    c ∈ cs → c.commit_hash ∈ v → c ∈ removeUnvisitedLoop v k cs i := by
  intro k
  induction k with
  | zero => intro cs i c hc _; exact hc
  | succ k ih =>
      intro cs i c hc hcv
      rw [removeUnvisitedLoop]
      by_cases hlt : i < cs.length
      · rw [dif_pos hlt]
        by_cases hv : (cs.get ⟨i, hlt⟩).commit_hash ∈ v
        · rw [if_pos hv]
          exact ih cs (i + 1) hc hcv
        · rw [if_neg hv]
          apply ih _ (i + 1) _ hcv
          apply mem_removeFirstCommit hc
          intro he
          rw [he] at hcv
          exact hv hcv
      · rw [dif_neg hlt]
        exact hc

/-- Exact effect of the builder's parent loop on the commit list: every
node whose hash occurs among the (duplicate-free) parents gains the
current hash as one new child. -/
theorem processParents_spec_wf : ∀ (parents : List String) (cs : List CommitObject)
    (vis : List (String × Bool)) (pl : List String) (chash : String)
    (cs2 : List CommitObject) (vis2 : List (String × Bool)) (pl2 : List String),
    (cs.map CommitObject.commit_hash).Nodup → parents.Nodup →
    processParents cs vis pl chash parents = some (cs2, vis2, pl2) →
    cs2 = cs.map (fun d => if parents.contains d.commit_hash then
      { d with children := d.children ++ [chash] } else d) := by
  intro parents
  induction parents with
  | nil =>
      intro cs vis pl chash cs2 vis2 pl2 _ _ h
      rw [processParents_nil, Option.some_inj] at h
      obtain ⟨h1, _, _⟩ : cs = cs2 ∧ vis = vis2 ∧ pl = pl2 := by simpa using h
      have hpt : ∀ c ∈ cs, (if ([] : List String).contains c.commit_hash then
          { c with children := c.children ++ [chash] } else c) = id c := fun c _ => rfl
      rw [List.map_congr_left hpt, List.map_id, ← h1]
  | cons p rest ih =>
      intro cs vis pl chash cs2 vis2 pl2 hnd hpn h
      cases hg : grab_corresponding_commit cs p with
      | none => rw [processParents_cons_none hg] at h; exact absurd h (by simp)
      | some d =>
          rw [processParents_cons_some hg] at h
          have hpr : p ∉ rest := (List.nodup_cons.mp hpn).1
          have hrest : rest.Nodup := (List.nodup_cons.mp hpn).2
          have hnd1 : ((update_first cs p (fun e =>
              { e with children := e.children ++ [chash] })).map
              CommitObject.commit_hash).Nodup := by
            have heq1 : (update_first cs p (fun e =>
                { e with children := e.children ++ [chash] })).map
                CommitObject.commit_hash = cs.map CommitObject.commit_hash := by
              apply update_first_map
              intro c
              rfl
            rw [heq1]
            exact hnd
          have := ih _ _ _ _ _ _ _ hnd1 hrest h
          rw [this, update_first_eq_map hnd, List.map_map]
          apply List.map_congr_left
          intro c hc
          by_cases hcp : c.commit_hash = p
          · have hpnotr : rest.contains c.commit_hash = false := by
              rw [hcp]
              exact contains_false_of_not_mem hpr
            have hcons : (p :: rest).contains c.commit_hash = true := by
              apply List.elem_iff.mpr
              rw [hcp]
              exact List.mem_cons_self _ _
            simp only [Function.comp, if_pos hcp, hpnotr, Bool.false_eq_true, if_false,
              hcons, if_true]
          · have hsame : (p :: rest).contains c.commit_hash = rest.contains c.commit_hash := by
              apply Bool.eq_iff_iff.mpr
              constructor
              · intro hcon
                rcases List.mem_cons.mp (List.elem_iff.mp hcon) with he | hm
                · exact absurd he hcp
                · exact List.elem_iff.mpr hm
              · intro hcon
                exact List.elem_iff.mpr (List.mem_cons_of_mem _ (List.elem_iff.mp hcon))
            simp only [Function.comp, if_neg hcp, hsame]

/-- At drain time the builder's invariants survive the pruning pass and
yield the sorter's well-formedness bundle. -/
theorem build_drain_wf {records cs : List CommitObject}
    {visited : List (String × Bool)} {pl : List String} {i : Nat} {roots : List String}
    (hrnd : (records.map CommitObject.commit_hash).Nodup)
    (hrpn : ∀ r ∈ records, r.parents.Nodup)
    (hB1 : cs.map hp = records.map hp)
    (hB2 : ∀ x ∈ pl.take i, dictGet visited x = some true)
    (hB3 : ∀ c ∈ cs, c.children.Nodup ∧ ∀ ch ∈ c.children, ch ∈ pl.take i)
    (hB4 : ∀ c ∈ cs, ∀ ch ∈ c.children, ∃ d ∈ cs, d.commit_hash = ch ∧
      c.commit_hash ∈ d.parents)
    (hB5 : roots.Nodup ∧ ∀ r ∈ roots, r ∈ pl.take i ∧ ∃ c ∈ cs, c.commit_hash = r ∧
      c.parents = []) :
    SortWF (remove_unvisited_commits cs (visited.map Prod.fst)) roots := by
  have hhash : cs.map CommitObject.commit_hash = records.map CommitObject.commit_hash :=
    map_hash_of_map_hp hB1
  have hnd : (cs.map CommitObject.commit_hash).Nodup := by rw [hhash]; exact hrnd
  have hsub : List.Sublist (remove_unvisited_commits cs (visited.map Prod.fst)) cs :=
    removeUnvisitedLoop_sublist _ _ _ _
  have hsubset := hsub.subset
  have hkeep : ∀ c ∈ cs, dictGet visited c.commit_hash = some true →
      c ∈ remove_unvisited_commits cs (visited.map Prod.fst) := by
    intro c hc hv
    apply mem_removeUnvisitedLoop
    · exact hc
    · exact List.mem_map.mpr ⟨(c.commit_hash, true), dictGet_some_mem hv, rfl⟩
  constructor
  case hashNodup =>
      exact hnd.sublist (hsub.map _)
  case parentsNodup =>
      intro c hc
      obtain ⟨r, hr, hre⟩ := exists_hp_mem hB1 (hsubset hc)
      rw [← hp_parents hre]
      exact hrpn r hr
  case childrenNodup =>
      intro c hc
      exact (hB3 c (hsubset hc)).1
  case childrenLinked =>
      intro c hc ch hch
      obtain ⟨d, hd, hdh, hdp⟩ := hB4 c (hsubset hc) ch hch
      refine ⟨d, ?_, hdh, hdp⟩
      apply hkeep d hd
      rw [hdh]
      exact hB2 ch ((hB3 c (hsubset hc)).2 ch hch)
  case rootsNodup => exact hB5.1
  case rootsValid =>
      intro r hr
      obtain ⟨hrt, c, hc, hch, hcp⟩ := hB5.2 r hr
      refine ⟨c, ?_, hch, hcp⟩
      apply hkeep c hc
      rw [hch]
      exact hB2 r hrt

/-- The builder's worklist loop establishes the sorter's bundle on every
successful run, given duplicate-free records. -/
theorem buildLoop_wf {records : List CommitObject}
    (hrnd : (records.map CommitObject.commit_hash).Nodup)
    (hrpn : ∀ r ∈ records, r.parents.Nodup) :
    ∀ (fuel : Nat) (cs : List CommitObject) (visited : List (String × Bool))
      (pl : List String) (i : Nat) (roots : List String)
      (csOut : List CommitObject) (rootsOut : List String),
    buildLoop fuel cs visited pl i roots = BuildResult.ok csOut rootsOut →
    cs.map hp = records.map hp →
    (∀ x ∈ pl.take i, dictGet visited x = some true) →
    (∀ c ∈ cs, c.children.Nodup ∧ ∀ ch ∈ c.children, ch ∈ pl.take i) →
    (∀ c ∈ cs, ∀ ch ∈ c.children, ∃ d ∈ cs, d.commit_hash = ch ∧
      c.commit_hash ∈ d.parents) →
    (roots.Nodup ∧ ∀ r ∈ roots, r ∈ pl.take i ∧ ∃ c ∈ cs, c.commit_hash = r ∧
      c.parents = []) →
    SortWF csOut rootsOut := by
  intro fuel
  induction fuel with
  | zero =>
      intro cs visited pl i roots csOut rootsOut heq hB1 hB2 hB3 hB4 hB5
      by_cases hlt : i < pl.length
      · rw [buildLoop_zero cs visited pl i roots hlt] at heq
        exact absurd heq (by simp)
      · rw [buildLoop_drain 0 cs visited pl i roots hlt, BuildResult.ok.injEq] at heq
        rw [← heq.1, ← heq.2]
        exact build_drain_wf hrnd hrpn hB1 hB2 hB3 hB4 hB5
  | succ fuel' ih =>
      intro cs visited pl i roots csOut rootsOut heq hB1 hB2 hB3 hB4 hB5
      by_cases hlt : i < pl.length
      · have hTake1 : pl.take (i + 1) = pl.take i ++ [pl.get ⟨i, hlt⟩] := by
          rw [List.take_succ]
          congr 1
          have hgi : pl[i]? = some pl[i] := List.getElem?_eq_getElem hlt
          rw [hgi]
          rfl
        by_cases hv : dictGet visited (pl.get ⟨i, hlt⟩) = some true
        · rw [buildLoop_succ_skip hlt hv] at heq
          apply ih _ _ _ _ _ _ _ heq hB1 ?_ ?_ hB4 ?_
          · intro x hx
            rw [hTake1] at hx
            rcases List.mem_append.mp hx with hm | hm
            · exact hB2 x hm
            · rw [List.mem_singleton.mp hm]
              exact hv
          · intro c hc
            exact ⟨(hB3 c hc).1,
              fun ch hch => take_subset_succ pl i ((hB3 c hc).2 ch hch)⟩
          · exact ⟨hB5.1, fun r hr => ⟨take_subset_succ pl i (hB5.2 r hr).1,
              (hB5.2 r hr).2⟩⟩
        · cases hg : grab_corresponding_commit cs (pl.get ⟨i, hlt⟩) with
          | none =>
              rw [buildLoop_succ_crash1 hlt hv hg] at heq
              exact absurd heq (by simp)
          | some c =>
              cases hpp : processParents cs (dictSet visited (pl.get ⟨i, hlt⟩) true) pl
                  (pl.get ⟨i, hlt⟩) c.parents with
              | none =>
                  rw [buildLoop_succ_crash2 hlt hv hg hpp] at heq
                  exact absurd heq (by simp)
              | some out =>
                  obtain ⟨cs2, vis2, pl2⟩ := out
                  rw [buildLoop_succ_step hlt hv hg hpp] at heq
                  obtain ⟨hcmem, hchash⟩ := grab_some_mem hg
                  have hnotintake : pl.get ⟨i, hlt⟩ ∉ pl.take i := by
                    intro hin
                    exact hv (hB2 _ hin)
                  have hnd : (cs.map CommitObject.commit_hash).Nodup := by
                    rw [map_hash_of_map_hp hB1]
                    exact hrnd
                  have hpn : c.parents.Nodup := by
                    obtain ⟨r, hr, hre⟩ := exists_hp_mem hB1 hcmem
                    rw [← hp_parents hre]
                    exact hrpn r hr
                  obtain ⟨hhp2, ⟨suf, hpl2⟩, hget2, _⟩ :=
                    processParents_preserve _ _ _ _ _ _ _ _ hpp
                  have hcs2 := processParents_spec_wf _ _ _ _ _ _ _ _ hnd hpn hpp
                  have hTake2 : pl2.take (i + 1) = pl.take i ++ [pl.get ⟨i, hlt⟩] := by
                    rw [hpl2, List.take_append_of_le_length (by omega), hTake1]
                  have hGhash : ∀ d : CommitObject,
                      (if c.parents.contains d.commit_hash then
                        { d with children := d.children ++ [pl.get ⟨i, hlt⟩] }
                       else d).commit_hash = d.commit_hash := by
                    intro d
                    by_cases hd : c.parents.contains d.commit_hash
                    · rw [if_pos hd]
                    · rw [if_neg hd]
                  have hGparents : ∀ d : CommitObject,
                      (if c.parents.contains d.commit_hash then
                        { d with children := d.children ++ [pl.get ⟨i, hlt⟩] }
                       else d).parents = d.parents := by
                    intro d
                    by_cases hd : c.parents.contains d.commit_hash
                    · rw [if_pos hd]
                    · rw [if_neg hd]
                  apply ih _ _ _ _ _ _ _ heq ?_ ?_ ?_ ?_ ?_
                  -- B1: hash/parents skeleton unchanged
                  · rw [hhp2, hB1]
                  -- B2: all processed hashes marked true
                  · intro x hx
                    rw [hTake2] at hx
                    have hxv : dictGet (dictSet visited (pl.get ⟨i, hlt⟩) true) x =
                        some true := by
                      rcases List.mem_append.mp hx with hm | hm
                      · have hxne : x ≠ pl.get ⟨i, hlt⟩ := by
                          intro he
                          rw [he] at hm
                          exact hnotintake hm
                        rw [dictGet_dictSet, if_neg hxne]
                        exact hB2 x hm
                      · rw [List.mem_singleton.mp hm, dictGet_dictSet, if_pos rfl]
                    exact hget2 x true hxv
                  -- B3: children duplicate-free and within the processed prefix
                  · intro c' hc'
                    rw [hcs2] at hc'
                    obtain ⟨c0, hc0, hGc0⟩ := List.mem_map.mp hc'
                    rw [← hGc0]
                    by_cases hcond : c.parents.contains c0.commit_hash
                    · rw [if_pos hcond]
                      have hold := hB3 c0 hc0
                      have hnotchild : pl.get ⟨i, hlt⟩ ∉ c0.children := by
                        intro hin
                        exact hnotintake (hold.2 _ hin)
                      refine ⟨nodup_append_singleton hold.1 hnotchild, ?_⟩
                      intro ch hch
                      rw [hTake2]
                      rcases List.mem_append.mp hch with hm | hm
                      · exact List.mem_append.mpr (Or.inl (hold.2 ch hm))
                      · exact List.mem_append.mpr (Or.inr hm)
                    · rw [if_neg hcond]
                      refine ⟨(hB3 c0 hc0).1, ?_⟩
                      intro ch hch
                      rw [hTake2]
                      exact List.mem_append.mpr (Or.inl ((hB3 c0 hc0).2 ch hch))
                  -- B4: children point back to a parent edge
                  · intro c' hc' ch hch
                    rw [hcs2] at hc'
                    obtain ⟨c0, hc0, hGc0⟩ := List.mem_map.mp hc'
                    have hchsplit : ch ∈ c0.children ∨
                        (c.parents.contains c0.commit_hash = true ∧ ch = pl.get ⟨i, hlt⟩) := by
                      rw [← hGc0] at hch
                      by_cases hcond : c.parents.contains c0.commit_hash
                      · rw [if_pos hcond] at hch
                        rcases List.mem_append.mp hch with hm | hm
                        · exact Or.inl hm
                        · exact Or.inr ⟨hcond, List.mem_singleton.mp hm⟩
                      · rw [if_neg hcond] at hch
                        exact Or.inl hch
                    rcases hchsplit with hm | ⟨hcond, hce⟩
                    · obtain ⟨d, hd, hdh, hdp⟩ := hB4 c0 hc0 ch hm
                      refine ⟨(fun d => if c.parents.contains d.commit_hash then
                          { d with children := d.children ++ [pl.get ⟨i, hlt⟩] } else d) d,
                        by rw [hcs2]; exact List.mem_map.mpr ⟨d, hd, rfl⟩, ?_, ?_⟩
                      · rw [hGhash d]
                        exact hdh
                      · rw [hGparents d, ← skel_commit_hash rfl]
                        have : c'.commit_hash = c0.commit_hash := by
                          rw [← hGc0]
                          exact hGhash c0
                        rw [this]
                        exact hdp
                    · refine ⟨(fun d => if c.parents.contains d.commit_hash then
                          { d with children := d.children ++ [pl.get ⟨i, hlt⟩] } else d) c,
                        by rw [hcs2]; exact List.mem_map.mpr ⟨c, hcmem, rfl⟩, ?_, ?_⟩
                      · rw [hGhash c, hchash, hce]
                      · rw [hGparents c]
                        have : c'.commit_hash = c0.commit_hash := by
                          rw [← hGc0]
                          exact hGhash c0
                        rw [this]
                        exact List.elem_iff.mp hcond
                  -- B5: roots well-formed
                  · by_cases hpe : c.parents.isEmpty
                    · rw [if_pos hpe]
                      have hpnil : c.parents = [] := by
                        cases hp' : c.parents
                        · rfl
                        · rw [hp'] at hpe
                          simp [List.isEmpty] at hpe
                      have hhnot : pl.get ⟨i, hlt⟩ ∉ roots := by
                        intro hin
                        exact hnotintake (hB5.2 _ hin).1
                      refine ⟨nodup_append_singleton hB5.1 hhnot, ?_⟩
                      intro r hr
                      rcases List.mem_append.mp hr with hm | hm
                      · obtain ⟨hrt, d, hd, hdh, hdp⟩ := hB5.2 r hm
                        refine ⟨by rw [hTake2]; exact List.mem_append.mpr (Or.inl hrt),
                          (fun d => if c.parents.contains d.commit_hash then
                            { d with children := d.children ++ [pl.get ⟨i, hlt⟩] } else d) d,
                          by rw [hcs2]; exact List.mem_map.mpr ⟨d, hd, rfl⟩, ?_, ?_⟩
                        · rw [hGhash d]
                          exact hdh
                        · rw [hGparents d]
                          exact hdp
                      · rw [List.mem_singleton.mp hm]
                        have hmem1 : pl.get ⟨i, hlt⟩ ∈ pl2.take (i + 1) := by
                          rw [hTake2]
                          exact List.mem_append.mpr (Or.inr (List.mem_singleton.mpr rfl))
                        refine ⟨hmem1,
                          (fun d => if c.parents.contains d.commit_hash then
                            { d with children := d.children ++ [pl.get ⟨i, hlt⟩] } else d) c,
                          by rw [hcs2]; exact List.mem_map.mpr ⟨c, hcmem, rfl⟩, ?_, ?_⟩
                        · rw [hGhash c]
                          exact hchash
                        · rw [hGparents c]
                          exact hpnil
                    · rw [if_neg hpe]
                      refine ⟨hB5.1, ?_⟩
                      intro r hr
                      obtain ⟨hrt, d, hd, hdh, hdp⟩ := hB5.2 r hr
                      refine ⟨by rw [hTake2]; exact List.mem_append.mpr (Or.inl hrt),
                        (fun d => if c.parents.contains d.commit_hash then
                          { d with children := d.children ++ [pl.get ⟨i, hlt⟩] } else d) d,
                        by rw [hcs2]; exact List.mem_map.mpr ⟨d, hd, rfl⟩, ?_, ?_⟩
                      · rw [hGhash d]
                        exact hdh
                      · rw [hGparents d]
                        exact hdp
      · rw [buildLoop_drain (fuel' + 1) cs visited pl i roots hlt,
          BuildResult.ok.injEq] at heq
        rw [← heq.1, ← heq.2]
        exact build_drain_wf hrnd hrpn hB1 hB2 hB3 hB4 hB5

/-- `build_commit_graph` on duplicate-free records with empty initial
children lists produces a well-formed graph whenever it returns normally. -/
theorem build_wf {branches : List (String × List String)}
    {records : List CommitObject} {fuel : Nat}
    {csOut : List CommitObject} {rootsOut : List String}
    (hrnd : (records.map CommitObject.commit_hash).Nodup)
    (hrpn : ∀ r ∈ records, r.parents.Nodup)
    (hrch : ∀ r ∈ records, r.children = [])
    (hok : build_commit_graph branches records fuel = BuildResult.ok csOut rootsOut) :
    SortWF csOut rootsOut := by
  apply buildLoop_wf hrnd hrpn fuel records [] (initial_processing_list branches) 0 []
    csOut rootsOut hok rfl
  · intro x hx
    simp at hx
  · intro c hc
    rw [hrch c hc]
    exact ⟨List.nodup_nil, fun ch hch => absurd hch (List.not_mem_nil ch)⟩
  · intro c hc ch hch
    rw [hrch c hc] at hch
    exact absurd hch (List.not_mem_nil ch)
  · exact ⟨List.nodup_nil, fun r hr => absurd hr (List.not_mem_nil r)⟩

/-- C9 (corrected): every node's children list in the built graph is
duplicate-free provided no record declares the same parent hash twice
(hash-distinct records with fresh empty children lists); without that
proviso the builder appends one child entry per parent occurrence, so the
claim's "even if declared twice" clause fails (see the counterexample). -/
theorem claimC9_children_nodup {branches : List (String × List String)}
    {records : List CommitObject} {fuel : Nat}
    {csOut : List CommitObject} {rootsOut : List String}
    (hrnd : (records.map CommitObject.commit_hash).Nodup)
    (hrpn : ∀ r ∈ records, r.parents.Nodup)
    (hrch : ∀ r ∈ records, r.children = [])
    (hok : build_commit_graph branches records fuel = BuildResult.ok csOut rootsOut) :
    ∀ c ∈ csOut, c.children.Nodup :=
  fun c hc => (build_wf hrnd hrpn hrch hok).childrenNodup c hc

/-- C9 witness: the theorem applied to a two-commit chain whose build
completes; each output children list is duplicate-free. -/
theorem claimC9_witness :
    (⟨"a", [], ["b"], []⟩ : CommitObject).children.Nodup :=
  @claimC9_children_nodup [("b", ["main"])]
    [⟨"b", ["a"], [], []⟩, ⟨"a", [], [], []⟩] 3
    [⟨"b", ["a"], [], []⟩, ⟨"a", [], ["b"], []⟩] ["a"]
    (by decide) (by decide) (by decide) (by decide)
    ⟨"a", [], ["b"], []⟩ (by decide)

/-- C10: on any graph produced by `build_commit_graph` from duplicate-free
records (distinct hashes, duplicate-free parent lists, fresh empty
children lists), the sorter's missing-parent recovery branch is
unreachable: `topological_sort` emits zero `attempting to remove
nonexisting parent` warnings for every fuel. -/
theorem claimC10_no_warnings {branches : List (String × List String)}
    {records : List CommitObject} {fuel : Nat}
    {csOut : List CommitObject} {rootsOut : List String}
    (hrnd : (records.map CommitObject.commit_hash).Nodup)
    (hrpn : ∀ r ∈ records, r.parents.Nodup)
    (hrch : ∀ r ∈ records, r.children = [])
    (hok : build_commit_graph branches records fuel = BuildResult.ok csOut rootsOut) :
    ∀ fuelS : Nat, (topological_sort csOut rootsOut fuelS).warnings = 0 :=
  fun fuelS => topological_sort_no_warnings (build_wf hrnd hrpn hrch hok) fuelS

/-- C10 witness: the theorem applied to the graph built from a concrete
two-commit chain, sorted with ample fuel. -/
theorem claimC10_witness :
    (topological_sort [(⟨"b", ["a"], [], []⟩ : CommitObject), ⟨"a", [], ["b"], []⟩]
      ["a"] 5).warnings = 0 :=
  @claimC10_no_warnings [("b", ["main"])]
    [⟨"b", ["a"], [], []⟩, ⟨"a", [], [], []⟩] 3
    [⟨"b", ["a"], [], []⟩, ⟨"a", [], ["b"], []⟩] ["a"]
    (by decide) (by decide) (by decide) (by decide) 5
